import Mathlib

/-
Verification of the CFG-normalization pipeline of
`lab7-teoria/lab7_cfg_epsilon_removal.py`.

The Python program represents a grammar as a start symbol (a `str`) together
with a `Dict[str, Set[str]]` mapping each nonterminal name to a set of
production bodies; a body is a string of characters, the one-character string
"ε" standing for the empty body.  We shallowly embed this data model:

* a body is a `List Char` (`Body`), with `epsB = ['ε']` the ε marker;
* the production mapping is an association list `Productions`
  (`List (String × List Body)`): the list order models the insertion order of
  a Python `dict`, and body lists are kept duplicate-free by `insertBody`,
  modelling Python's `set.add`;
* Python `set`s of nonterminal names become `Finset String`.

Every function of the source file that the claims mention is translated
below, keeping the source's names: `is_terminal`, `is_nonterminal`,
`find_nullable`, `eliminate_epsilon`, `eliminate_unit_productions`,
`generating_nonterminals`, `reachable_nonterminals`,
`remove_useless_symbols`, `fresh_var`, `to_cnf`.  The Python functions
return `(start, prods, steps)` tuples; `start` is always returned unchanged
and `steps` is a human-readable trace used only for printing, so the
embeddings return the new production mapping only.  The `while changed:`
fixed-point loops of the source are embedded as `iterFix`, which repeats one
full pass (itself a faithful left-to-right fold over the same items the
Python `for` loops visit, threading the partially-updated state exactly as
the in-place mutation does) until a pass changes nothing; fuel arguments are
sized so that the fixed point is always reached (proved below).
-/

/-- Python `is_terminal`: `ch.islower() or ch.isdigit()`.  Python's `islower`
is Unicode-aware; on the characters this program ever manipulates (the
parser's `VALID_BODY_CHARS`, i.e. ASCII letters and digits, plus the ε
markers) it returns `True` exactly for ASCII lowercase letters and for the
Greek letters 'ε' and 'ϵ', which is what we encode. -/
def is_terminal (c : Char) : Bool :=
  c.isLower || c.isDigit || c == 'ε' || c == 'ϵ'

/-- Python `is_nonterminal`: `ch.isupper()` (on the program's character set,
exactly the ASCII uppercase letters). -/
def is_nonterminal (c : Char) : Bool :=
  c.isUpper

/-- A production body: a Python body string, as its list of characters. -/
abbrev Body := List Char

/-- The ε body: the one-character Python string `"ε"`. -/
def epsB : Body := ['ε']

/-- Python's `Productions = Dict[str, Set[str]]`, as an association list in
dict insertion order; each value is a duplicate-free list standing for the
Python set of bodies. -/
abbrev Productions := List (String × List Body)

/-- The one-character string holding `c` (Python freely mixes characters and
one-character strings; dict/set lookups of a body character go through
this). -/
def chStr (c : Char) : String := String.mk [c]

/-- Python `prods.get(A, set())` (also `prods[A]` where the key is known to
be present). -/
def getD (P : Productions) (A : String) : List Body :=
  match P.find? (fun p => p.1 == A) with
  | some p => p.2
  | none => []

/-- The keys of the mapping, in insertion order (`prods.keys()`). -/
def keysList (P : Productions) : List String := P.map (fun p => p.1)

/-- Python `set.add` on a set of bodies: a no-op when the body is present. -/
def insertBody (l : List Body) (b : Body) : List Body :=
  if b ∈ l then l else l ++ [b]

/-- Python `s.update(t)` on sets of bodies. -/
def unionBodies (l m : List Body) : List Body := m.foldl insertBody l

/-- Python `prods[A].add(b)` for an existing key `A` (no-op when the key is
absent; the source only does this when the key is known to be present). -/
def addB : Productions → String → Body → Productions
  | [], _, _ => []
  | p :: t, A, b => if p.1 = A then (p.1, insertBody p.2 b) :: t else p :: addB t A b

/-- Python `prods.setdefault(A, set()).add(b)`: adds to the existing entry,
or appends a fresh entry at the end (dict insertion order). -/
def setdefaultAdd : Productions → String → Body → Productions
  | [], A, b => [(A, [b])]
  | p :: t, A, b => if p.1 = A then (p.1, insertBody p.2 b) :: t else p :: setdefaultAdd t A b

/-- One `while changed:` loop: repeat `f` until a pass changes nothing, with
enough fuel (the source's loops always terminate because their state grows
monotonically inside a finite universe; lemmas below show the fuel used by
each call suffices to reach the fixed point). -/
def iterFix {α : Type} [DecidableEq α] (f : α → α) : Nat → α → α
  | 0, s => s
  | k + 1, s => if f s = s then s else iterFix f k (f s)

/-! ### `find_nullable` -/

/-- The body test inside `find_nullable`'s loop: the body is `"ε"`, or every
character is neither a terminal nor a nonterminal outside the current
nullable set (Python sets `ok = False` on a terminal, or on a nonterminal not
yet in `nullable`). -/
def nullableBodyOk (N : Finset String) (b : Body) : Bool :=
  b == epsB ||
    b.all (fun c => !(is_terminal c) && (!(is_nonterminal c) || decide (chStr c ∈ N)))

/-- The common shape of the source's set-growing loops: walk the items,
inserting the key of every element whose condition holds in the current
(partially updated, exactly as the in-place `set.add` does) set. -/
def foldIns {α : Type _} (cond : Finset String → α → Bool) (key : α → String)
    (l : List α) (s : Finset String) : Finset String :=
  l.foldl (fun s x => if cond s x then insert (key x) s else s) s

/-- One pass of `find_nullable`'s `while changed:` loop over
`prods.items()`. -/
def nullablePass (P : Productions) (s : Finset String) : Finset String :=
  foldIns (fun s p => p.2.any (nullableBodyOk s)) (fun p => p.1) P s

/-- The seeding loop of `find_nullable`: nonterminals with an explicit ε
body. -/
def nullableSeed (P : Productions) : Finset String :=
  foldIns (fun _ p => decide (epsB ∈ p.2)) (fun p => p.1) P ∅

/-- Python `find_nullable(start, prods)` (the `start` argument is unused in
the source as well). -/
def find_nullable (_start : String) (P : Productions) : Finset String :=
  iterFix (nullablePass P) ((keysList P).toFinset.card + 1) (nullableSeed P)

/-! ### `eliminate_epsilon` -/

/-- The `positions` list of `eliminate_epsilon`: indices (from `i`) of body
characters that are nullable nonterminals, in increasing order. -/
def positionsOf (N : Finset String) : Nat → Body → List Nat
  | _, [] => []
  | i, c :: t =>
    if is_nonterminal c && decide (chStr c ∈ N) then i :: positionsOf N (i + 1) t
    else positionsOf N (i + 1) t

/-- The candidate built for one `mask`: keep each character unless its index
is a nullable position whose bit in `mask` is set (Python's
`(mask >> positions.index(i)) & 1`). -/
def maskKeep (positions : List Nat) (mask : Nat) : Nat → Body → Body
  | _, [] => []
  | i, c :: t =>
    if positions.contains i && mask.testBit (positions.indexOf i) then
      maskKeep positions mask (i + 1) t
    else c :: maskKeep positions mask (i + 1) t

/-- All `2^m` candidates of a body (`for mask in range(1 << m)`). -/
def candidatesList (N : Finset String) (b : Body) : List Body :=
  (List.range (2 ^ (positionsOf N 0 b).length)).map
    (fun mask => maskKeep (positionsOf N 0 b) mask 0 b)

/-- The `generated` set of one original body: every candidate is added,
except that an empty candidate becomes the ε body when the owner is the
start symbol and retention is on, and is dropped otherwise. -/
def processGen (start A : String) (keep : Bool) (N : Finset String) (b : Body) :
    List Body :=
  (candidatesList N b).foldl
    (fun acc c =>
      if c = [] then (if A = start ∧ keep = true then insertBody acc epsB else acc)
      else insertBody acc c) []

/-- A body's contribution to the new mapping, including the
`generated if generated else {b}` fallback (ε bodies contribute nothing;
the loop `continue`s on them). -/
def processBody (start A : String) (keep : Bool) (N : Finset String) (b : Body) :
    List Body :=
  if b = epsB then []
  else if processGen start A keep N b = [] then [b]
  else processGen start A keep N b

/-- The main loop of `eliminate_epsilon`, before the final start-ε fixups. -/
def elimEpsBase (start : String) (keep : Bool) (N : Finset String) (P : Productions) :
    Productions :=
  P.map (fun p =>
    (p.1, p.2.foldl (fun acc b => unionBodies acc (processBody start p.1 keep N b)) []))

/-- Python `eliminate_epsilon(start, prods, keep_start_epsilon)`: expand away
nullable occurrences, then force-add ε at a nullable start when retention is
on, then strip ε from every non-start nonterminal. -/
def eliminate_epsilon (start : String) (P : Productions) (keep : Bool) : Productions :=
  let N := find_nullable start P
  let base := elimEpsBase start keep N P
  let base2 := if keep = true ∧ start ∈ N then addB base start epsB else base
  base2.map (fun p =>
    (p.1, if p.1 = start then p.2 else p.2.filter (fun b => !(b == epsB))))

/-! ### `eliminate_unit_productions` -/

/-- The unit-body test `len(b) == 1 and is_nonterminal(b)`. -/
def isUnitB (b : Body) : Bool :=
  match b with
  | [c] => is_nonterminal c
  | _ => false

/-- Python `set.add` on a set of names: a no-op when present (keeps the list
duplicate-free, in insertion order). -/
def insertStr (l : List String) (s : String) : List String :=
  if s ∈ l then l else l ++ [s]

/-- Python `s |= t` on sets of names. -/
def unionStr (l m : List String) : List String := m.foldl insertStr l

/-- The unit-closure table `unit : Dict[str, Set[str]]`, an association list
over the fixed key list `nts`; each value is a duplicate-free insertion-order
list standing for a Python set. -/
abbrev USt := List (String × List String)

/-- `unit.get(B, set())`. -/
def lookupU (u : USt) (B : String) : List String :=
  match u.find? (fun p => p.1 == B) with
  | some p => p.2
  | none => []

/-- Replace the (first) entry of `A`. -/
def updU : USt → String → List String → USt
  | [], _, _ => []
  | p :: t, A, s => if p.1 = A then (A, s) :: t else p :: updU t A s

/-- The direct-edge loop for one nonterminal, without the `changed` flag:
add every single-nonterminal body of `A` to the working set (`unitDirectC`
below carries the flag as well; this flag-free version is its table
component, convenient in proofs). -/
def unitDirect (P : Productions) (A : String) (s : List String) : List String :=
  (getD P A).foldl (fun s b => if isUnitB b then insertStr s (String.mk b) else s) s

/-- The direct-edge loop for one nonterminal exactly as the source runs it:
`if len(b) == 1 and is_nonterminal(b) and b not in unit[A]: unit[A].add(b);
changed = True`.  The flag is set only here — an addition of a not-yet-known
direct target — and nowhere else in the whole loop. -/
def unitDirectC (P : Productions) (A : String) (sc : List String × Bool) :
    List String × Bool :=
  (getD P A).foldl (fun sc b =>
    if isUnitB b && !(decide (String.mk b ∈ sc.1)) then (sc.1 ++ [String.mk b], true)
    else sc) sc

/-- Processing one nonterminal `A` inside a pass, flag-free table component:
add `A`'s direct unit edges, then union in the currently-known closure of
every member (Python iterates `list(unit[A])`, the snapshot taken after the
direct edges were added, accumulating with `|=`). -/
def unitStepA (P : Productions) (u : USt) (A : String) : USt :=
  let S := unitDirect P A (lookupU u A)
  updU u A (S.foldl (fun acc B => unionStr acc (lookupU u B)) S)

/-- Processing one nonterminal inside a pass, threading the `changed` flag:
the union step `unit[A] |= unit.get(B, set())` never touches the flag. -/
def unitStepC (P : Productions) (uc : USt × Bool) (A : String) : USt × Bool :=
  let r := unitDirectC P A (lookupU uc.1 A, uc.2)
  (updU uc.1 A (r.1.foldl (fun acc B => unionStr acc (lookupU uc.1 B)) r.1), r.2)

/-- One pass over all nonterminals, flag-free table component, threading
updates so later nonterminals see earlier ones' new closures. -/
def unitPass (P : Productions) (nts : List String) (u : USt) : USt :=
  nts.foldl (unitStepA P) u

/-- One pass of the `while changed:` loop: `changed = False`, then every
nonterminal in key order. -/
def unitPassC (P : Productions) (nts : List String) (u : USt) : USt × Bool :=
  nts.foldl (unitStepC P) (u, false)

/-- All names that can ever enter a closure set: the keys and the targets of
unit bodies (a finite universe, used only to size the loop fuel). -/
def unitUniv (P : Productions) : Finset String :=
  (keysList P).toFinset ∪
    P.foldl (fun s p => p.2.foldl
      (fun s b => if isUnitB b then insert (String.mk b) s else s) s) ∅

/-- The source's `while changed:` loop: run passes until one adds no new
direct edge — the transitive-union steps never set `changed`, so the loop
stops even when the last pass still grew the table.  Since every direct
edge lands in the first pass, the loop in fact always stops after at most
two passes (proved below, `unitLoop_two_passes`), so the generous fuel is
never exhausted and the model returns exactly what the source returns. -/
def unitLoop (P : Productions) (nts : List String) : Nat → USt → USt
  | 0, u => u
  | fuel + 1, u =>
    let r := unitPassC P nts u
    if r.2 then unitLoop P nts fuel r.1 else r.1

/-- The closure table `unit` as the loop leaves it when `changed` stays
false.  NOTE: this is not the transitive closure — on a chain A → B → C → D
the loop stops after two passes with unit[A] = {A, B, C}. -/
def unitTable (P : Productions) (nts : List String) : USt :=
  unitLoop P nts (nts.length * (unitUniv P).card + 2) (nts.map (fun A => (A, [A])))

/-- Python `eliminate_unit_productions(start, prods)`: each nonterminal gets
the non-unit bodies of every member of its (two-pass, order-dependent)
`unit` table entry. -/
def eliminate_unit_productions (_start : String) (P : Productions) : Productions :=
  let nts := keysList P
  let u := unitTable P nts
  nts.map (fun A =>
    (A, (lookupU u A).foldl (fun acc B =>
      (getD P B).foldl (fun acc b => if isUnitB b then acc else insertBody acc b) acc) []))

/-! ### `remove_useless_symbols` -/

/-- The body test of `generating_nonterminals`: no character is a
nonterminal outside the current generating set. -/
def genBodyOk (g : Finset String) (b : Body) : Bool :=
  b.all (fun c => !(is_nonterminal c) || decide (chStr c ∈ g))

/-- One pass of `generating_nonterminals`. -/
def genPass (P : Productions) (s : Finset String) : Finset String :=
  foldIns (fun s p => p.2.any (genBodyOk s)) (fun p => p.1) P s

/-- Python `generating_nonterminals(prods)`. -/
def generating_nonterminals (P : Productions) : Finset String :=
  iterFix (genPass P) ((keysList P).toFinset.card + 1) ∅

/-- The nonterminal names occurring in a body. -/
def ntNames (b : Body) : Finset String :=
  b.foldl (fun s c => if is_nonterminal c then insert (chStr c) s else s) ∅

/-- One pass of `reachable_nonterminals`: every nonterminal occurring in a
body of a currently-reachable nonterminal becomes reachable. -/
def reachPass (P : Productions) (r : Finset String) : Finset String :=
  r ∪ r.biUnion (fun A => (getD P A).foldl (fun s b => s ∪ ntNames b) ∅)

/-- All names reachability can ever see: the start, the keys, and every
nonterminal occurring in a body. -/
def reachUniv (start : String) (P : Productions) : Finset String :=
  insert start ((keysList P).toFinset ∪
    P.foldl (fun s p => p.2.foldl (fun s b => s ∪ ntNames b) s) ∅)

/-- Python `reachable_nonterminals(start, prods)`. -/
def reachable_nonterminals (start : String) (P : Productions) : Finset String :=
  iterFix (reachPass P) ((reachUniv start P).card + 1) {start}

/-- The intermediate grammar of `remove_useless_symbols`: keep generating
nonterminals, and within them only the bodies whose symbols are all
terminals or generating nonterminals. -/
def prodsGenOf (P : Productions) (gen : Finset String) : Productions :=
  (P.filter (fun p => decide (p.1 ∈ gen))).map
    (fun p => (p.1, p.2.filter (fun b =>
      b.all (fun c => is_terminal c || decide (chStr c ∈ gen)))))

/-- The final filter of `remove_useless_symbols`: keep reachable
nonterminals. -/
def finalOf (Q : Productions) (reach : Finset String) : Productions :=
  Q.filter (fun p => decide (p.1 ∈ reach))

/-- Python `remove_useless_symbols(start, prods)`: keep generating
nonterminals and generating-only bodies, then keep reachable nonterminals,
reinserting the start symbol with an empty body set if it was filtered
out. -/
def remove_useless_symbols (start : String) (P : Productions) : Productions :=
  let gen := generating_nonterminals P
  let prods_gen := prodsGenOf P gen
  let reach := reachable_nonterminals start prods_gen
  let final := finalOf prods_gen reach
  if final.any (fun p => p.1 == start) then final else final ++ [(start, [])]

/-- The `final` local of `remove_useless_symbols` (the generating-and-
reachable core, before the start symbol is possibly reinserted), named so
the semantic lemmas below can speak about it. -/
def cleaned (start : String) (P : Productions) : Productions :=
  finalOf (prodsGenOf P (generating_nonterminals P))
    (reachable_nonterminals start (prodsGenOf P (generating_nonterminals P)))

/-! ### `to_cnf` -/

/-- A digit as its decimal character, used to render the counter suffix of a
fresh variable name exactly as Python's f-string does. -/
def digitChar (d : Nat) : Char :=
  match d with
  | 0 => '0'
  | 1 => '1'
  | 2 => '2'
  | 3 => '3'
  | 4 => '4'
  | 5 => '5'
  | 6 => '6'
  | 7 => '7'
  | 8 => '8'
  | _ => '9'

/-- Decimal digits of `n`, most significant first (fuel-driven; `fuel > n`
suffices). -/
def natDigits : Nat → Nat → List Nat
  | 0, _ => []
  | fuel + 1, n => if n < 10 then [n] else natDigits fuel (n / 10) ++ [n % 10]

/-- Decimal rendering of `n`, Python's `f"{n}"`. -/
def natStr (n : Nat) : String := String.mk ((natDigits (n + 1) n).map digitChar)

/-- The search loop of `fresh_var`: try `base1`, `base2`, ... until a name
not in `used` appears (the pigeonhole fuel `used.card + 1` always suffices,
proved below). -/
def freshFrom (used : Finset String) (base : String) : Nat → Nat → String
  | 0, i => base ++ natStr i
  | fuel + 1, i =>
    let cand := base ++ natStr i
    if cand ∈ used then freshFrom used base fuel (i + 1) else cand

/-- Python `fresh_var(used, base)`: returns the minted name and the grown
`used` set (the Python function mutates `used` in place). -/
def fresh_var (used : Finset String) (base : String) : String × Finset String :=
  let c := freshFrom used base (used.card + 1) 1
  (c, insert c used)

/-- The state threaded through `to_cnf`'s first pass: the `used` name set,
the `term_var` mapping (an insertion-ordered assoc list, like a Python
dict), and the `cnf1` productions built so far. -/
structure LiftSt where
  used : Finset String
  tv : List (Char × String)
  out : Productions

/-- Lifting one body character: terminals are replaced by their (possibly
freshly minted) lifter nonterminal, preferring the upper-cased character
when it is a single uppercase letter not already in use; nonterminals pass
through.  Returns the replacement string (Python appends it to `new_body`). -/
def liftChar (st : LiftSt) (c : Char) : String × LiftSt :=
  if is_terminal c then
    match st.tv.find? (fun p => p.1 == c) with
    | some p => (p.2, st)
    | none =>
      let cand := String.mk [c.toUpper]
      if cand ∈ st.used || !(c.toUpper.isUpper) then
        let f := fresh_var st.used ("T" ++ chStr c)
        (f.1, ⟨insert f.1 f.2, st.tv ++ [(c, f.1)], st.out⟩)
      else
        (cand, ⟨insert cand st.used, st.tv ++ [(c, cand)], st.out⟩)
  else (chStr c, st)

/-- Lift every character of a body and join the pieces (`"".join(new_body)`),
threading the allocator state. -/
def liftBody (st : LiftSt) (b : Body) : Body × LiftSt :=
  b.foldl (fun acc c =>
    let r := liftChar acc.2 c
    (acc.1 ++ r.1.data, r.2)) (([] : Body), st)

/-- Processing one body in `to_cnf`'s first pass: drop non-start ε bodies,
lift terminals inside bodies of length ≥ 2, and keep short bodies as they
are. -/
def cnf1Step (start A : String) (st : LiftSt) (b : Body) : LiftSt :=
  if b = epsB ∧ A ≠ start then st
  else if 2 ≤ b.length then
    let r := liftBody st b
    { r.2 with out := addB r.2.out A r.1 }
  else { st with out := addB st.out A b }

/-- The whole first pass of `to_cnf` (terminal lifting), including the final
`lifter → terminal` rules appended in `term_var` insertion order. -/
def cnf1Of (start : String) (P : Productions) : Productions :=
  let init : LiftSt := ⟨(keysList P).toFinset, [], P.map (fun p => (p.1, ([] : List Body)))⟩
  let st := P.foldl (fun st p => p.2.foldl (cnf1Step start p.1) st) init
  st.tv.foldl (fun Q p => setdefaultAdd Q p.2 [p.1]) st.out

/-- The binarization loop: `prev -> symbols[i] · fresh`, stepping through the
body, closing with the final two symbols as one binary body. -/
def binChain : Productions × Finset String → String → Body → Productions × Finset String
  | qu, _, [] => qu
  | qu, _, [_] => qu
  | qu, prev, [x, y] => (setdefaultAdd qu.1 prev [x, y], qu.2)
  | qu, prev, x :: t =>
    let f := fresh_var qu.2 "Y"
    binChain (setdefaultAdd qu.1 prev (x :: f.1.data), f.2) f.1 t

/-- Processing one body in `to_cnf`'s second pass: keep the start's ε body
and bodies of length ≤ 2, binarize longer bodies. -/
def cnf2Step (start A : String) (qu : Productions × Finset String) (b : Body) :
    Productions × Finset String :=
  if b = epsB ∧ A = start then (addB qu.1 A epsB, qu.2)
  else if b.length ≤ 2 then (addB qu.1 A b, qu.2)
  else binChain qu A b

/-- Python `to_cnf(start, prods)`: terminal lifting, then binarization. -/
def to_cnf (start : String) (P : Productions) : Productions :=
  let cnf1 := cnf1Of start P
  let init : Productions × Finset String :=
    (cnf1.map (fun p => (p.1, ([] : List Body))), (keysList cnf1).toFinset)
  (cnf1.foldl (fun qu p => p.2.foldl (cnf2Step start p.1) qu) init).1

/-- The spec's CNF body shape: a single terminal, exactly two nonterminals,
or the ε body on the start symbol. -/
def cnfBodyOkB (start A : String) (b : Body) : Bool :=
  (b.length == 1 && b.all is_terminal) ||
  (b.length == 2 && b.all is_nonterminal) ||
  (b == epsB && A == start)

/-- The spec's CNF shape invariant over a whole grammar. -/
def cnfShapeB (start : String) (P : Productions) : Bool :=
  P.all (fun p => p.2.all (cnfBodyOkB start p.1))

/-- Equality of two productions values as Python grammars: the same key set
and, per key, the same Set of bodies (insertion order disregarded). -/
def prodsEquivB (P Q : Productions) : Bool :=
  (keysList P).all (fun A => decide (A ∈ keysList Q)) &&
  (keysList Q).all (fun A => decide (A ∈ keysList P)) &&
  (keysList P).all (fun A =>
    (getD P A).all (fun b => decide (b ∈ getD Q A)) &&
    (getD Q A).all (fun b => decide (b ∈ getD P A)))

/-- The pipeline `main` runs on a parsed grammar (`keep_start_epsilon` is
`True` in the source's call). -/
def pipeline (start : String) (P : Productions) : Productions :=
  to_cnf start (remove_useless_symbols start
    (eliminate_unit_productions start (eliminate_epsilon start P true)))

/-! ## Generic lemmas about the fold and fixed-point shapes -/

theorem foldl_induction {α : Type _} {β : Type _} (f : α → β → α) (Inv : α → Prop) :
    ∀ (l : List β) (s : α), Inv s → (∀ s x, x ∈ l → Inv s → Inv (f s x)) → Inv (l.foldl f s) := by
  intro l
  induction l with
  | nil => intro s hs _; exact hs
  | cons a t ih =>
    intro s hs hstep
    exact ih (f s a) (hstep s a (by simp) hs)
      (fun s2 x hx hs2 => hstep s2 x (by simp [hx]) hs2)

theorem subset_foldIns {α : Type _} (cond : Finset String → α → Bool) (key : α → String) :
    ∀ (l : List α) (s : Finset String), s ⊆ foldIns cond key l s := by
  intro l
  induction l with
  | nil => intro s; exact Finset.Subset.refl s
  | cons a t ih =>
    intro s
    have h1 : s ⊆ (if cond s a then insert (key a) s else s) := by
      by_cases h : cond s a
      · simp only [h, if_true]; exact Finset.subset_insert _ s
      · simp only [h, if_false]; exact Finset.Subset.refl s
    exact Finset.Subset.trans h1 (by simpa [foldIns] using ih (if cond s a then insert (key a) s else s))

theorem foldIns_subset {α : Type _} (cond : Finset String → α → Bool) (key : α → String)
    (l : List α) (s U : Finset String) (hs : s ⊆ U) (hk : ∀ x ∈ l, key x ∈ U) :
    foldIns cond key l s ⊆ U := by
  refine foldl_induction _ (fun t => t ⊆ U) l s hs ?_
  intro s2 x hx hs2
  by_cases h : cond s2 x
  · simp only [h, if_true]
    exact Finset.insert_subset (hk x hx) hs2
  · simpa [h] using hs2

theorem foldIns_fix_mem {α : Type _} (cond : Finset String → α → Bool) (key : α → String) :
    ∀ (l : List α) (s : Finset String), foldIns cond key l s = s →
      ∀ x ∈ l, cond s x = true → key x ∈ s := by
  intro l
  induction l with
  | nil => intro s _ x hx; exact absurd hx (List.not_mem_nil x)
  | cons a t ih =>
    intro s hfix x hx hcond
    have hstep : foldIns cond key (a :: t) s = foldIns cond key t (if cond s a then insert (key a) s else s) := rfl
    have hs1 : s ⊆ (if cond s a then insert (key a) s else s) := by
      by_cases h : cond s a
      · simp only [h, if_true]; exact Finset.subset_insert _ s
      · simp only [h, if_false]; exact Finset.Subset.refl s
    have hs2 : (if cond s a then insert (key a) s else s) ⊆ s := by
      calc (if cond s a then insert (key a) s else s)
          ⊆ foldIns cond key t (if cond s a then insert (key a) s else s) := subset_foldIns _ _ _ _
        _ = s := by rw [← hstep, hfix]
    have heq : (if cond s a then insert (key a) s else s) = s :=
      Finset.Subset.antisymm hs2 hs1
    rcases List.mem_cons.mp hx with h | h
    · subst h
      have : insert (key x) s = s := by simpa [hcond] using heq
      exact Finset.insert_eq_self.mp this
    · have hts : foldIns cond key t s = s := by
        conv_lhs => rw [← heq]
        rw [← hstep]; exact hfix
      exact ih s hts x h hcond

theorem foldIns_sound {α : Type _} (cond : Finset String → α → Bool) (key : α → String)
    (Q : String → Prop) :
    ∀ (l : List α) (s : Finset String), (∀ y ∈ s, Q y) →
      (∀ (s2 : Finset String) x, x ∈ l → (∀ y ∈ s2, Q y) → cond s2 x = true → Q (key x)) →
      ∀ y ∈ foldIns cond key l s, Q y := by
  intro l
  induction l with
  | nil => intro s hs _ y hy; exact hs y hy
  | cons a t ih =>
    intro s hs hstep y hy
    have hs1 : ∀ z ∈ (if cond s a then insert (key a) s else s), Q z := by
      intro z hz
      by_cases h : cond s a
      · simp only [h, if_true, Finset.mem_insert] at hz
        rcases hz with hz | hz
        · subst hz; exact hstep s a (by simp) hs h
        · exact hs z hz
      · simp only [h, if_false] at hz; exact hs z hz
    exact ih _ hs1 (fun s2 x hx hq hc => hstep s2 x (by simp [hx]) hq hc) y hy

theorem iterFix_inv {α : Type} [DecidableEq α] (f : α → α) (Q : α → Prop)
    (hf : ∀ s, Q s → Q (f s)) : ∀ (k : Nat) (s : α), Q s → Q (iterFix f k s) := by
  intro k
  induction k with
  | zero => intro s hs; exact hs
  | succ k ih =>
    intro s hs
    by_cases h : f s = s
    · simpa [iterFix, h] using hs
    · simpa [iterFix, h] using ih (f s) (hf s hs)

theorem iterFix_fix {α : Type} [DecidableEq α] (f : α → α) (Inv : α → Prop)
    (μ : α → Nat) (M : Nat)
    (hInv : ∀ s, Inv s → Inv (f s))
    (hlt : ∀ s, Inv s → f s ≠ s → μ s < μ (f s))
    (hM : ∀ s, Inv s → μ s ≤ M) :
    ∀ (k : Nat) (s : α), Inv s → M ≤ μ s + k → f (iterFix f k s) = iterFix f k s := by
  intro k
  induction k with
  | zero =>
    intro s hs hk
    simp only [Nat.add_zero] at hk
    by_cases h : f s = s
    · simpa [iterFix] using h
    · exact absurd (Nat.lt_of_lt_of_le (hlt s hs h) (hM (f s) (hInv s hs)))
        (Nat.not_lt.mpr hk)
  | succ k ih =>
    intro s hs hk
    by_cases h : f s = s
    · simp [iterFix, h]
    · have h2 : M ≤ μ (f s) + k := by
        have := hlt s hs h
        omega
      simpa [iterFix, h] using ih (f s) (hInv s hs) h2

/-! ## Derivation semantics

Sentential forms are lists of characters (the program's bodies are character
strings).  A step rewrites one occurrence of a nonterminal character using a
stored body of the mapping; the stored `"ε"` marker contributes the empty
string.  This is the standard derivation relation of the grammar the Python
data structure denotes, used by the spec's semantic claims (nullability,
generating/reachable symbols, language preservation). -/

/-- What a stored body contributes to a sentential form. -/
def interp (b : Body) : List Char := if b = epsB then [] else b

/-- One derivation step. -/
inductive StepR (P : Productions) : List Char → List Char → Prop
  | mk (x y : List Char) (N : Char) (b : Body) (hb : b ∈ getD P (chStr N)) :
      StepR P (x ++ N :: y) (x ++ (interp b ++ y))

/-- Derivations of exactly `n` steps. -/
inductive DerivN (P : Productions) : Nat → List Char → List Char → Prop
  | refl (u : List Char) : DerivN P 0 u u
  | step {n : Nat} {u v w : List Char} :
      StepR P u v → DerivN P n v w → DerivN P (n + 1) u w

theorem stepR_inv {P : Productions} {u v : List Char} (h : StepR P u v) :
    ∃ x y N b, b ∈ getD P (chStr N) ∧ u = x ++ N :: y ∧ v = x ++ (interp b ++ y) := by
  cases h with
  | mk x y N b hb => exact ⟨x, y, N, b, hb, rfl, rfl⟩

theorem stepR_ctx {P : Productions} {u v : List Char} (x y : List Char)
    (h : StepR P u v) : StepR P (x ++ u ++ y) (x ++ v ++ y) := by
  obtain ⟨a, b, N, c, hc, hu, hv⟩ := stepR_inv h
  subst hu; subst hv
  have h2 := StepR.mk (P := P) (x ++ a) (b ++ y) N c hc
  simpa [List.append_assoc] using h2

theorem derivN_trans {P : Productions} :
    ∀ {m n : Nat} {u v w : List Char},
      DerivN P m u v → DerivN P n v w → DerivN P (m + n) u w := by
  intro m n u v w h1
  induction h1 with
  | refl u => intro h2; simpa using h2
  | step hs _ ih =>
    intro h2
    rw [Nat.succ_add]
    exact DerivN.step hs (ih h2)

theorem derivN_ctx {P : Productions} (x y : List Char) :
    ∀ {n : Nat} {u v : List Char}, DerivN P n u v → DerivN P n (x ++ u ++ y) (x ++ v ++ y) := by
  intro n u v h
  induction h with
  | refl u => exact DerivN.refl _
  | step hs _ ih => exact DerivN.step (stepR_ctx x y hs) ih

theorem derivN_append {P : Productions} {m n : Nat} {u u2 v v2 : List Char}
    (h1 : DerivN P m u u2) (h2 : DerivN P n v v2) :
    DerivN P (m + n) (u ++ v) (u2 ++ v2) := by
  have a1 : DerivN P m (u ++ v) (u2 ++ v) := by
    have h3 := derivN_ctx ([] : List Char) v h1
    simpa using h3
  have a2 : DerivN P n (u2 ++ v) (u2 ++ v2) := by
    have h3 := derivN_ctx u2 ([] : List Char) h2
    simpa using h3
  exact derivN_trans a1 a2

theorem derivN_split {P : Productions} :
    ∀ (n : Nat) {u v w : List Char}, DerivN P n (u ++ v) w →
      ∃ n1 n2 w1 w2, n1 + n2 = n ∧ w = w1 ++ w2 ∧ DerivN P n1 u w1 ∧ DerivN P n2 v w2 := by
  intro n
  induction n using Nat.strong_induction_on with
  | _ n ih =>
    intro u v w h
    cases h with
    | refl => exact ⟨0, 0, u, v, rfl, rfl, DerivN.refl u, DerivN.refl v⟩
    | step hs hd =>
      rename_i k z
      obtain ⟨x, y, N, b, hb, hu, hz⟩ := stepR_inv hs
      subst hz
      rcases List.append_eq_append_iff.mp hu with ⟨a2, hx, hv⟩ | ⟨c2, hu2, hy2⟩
      · -- the rewritten occurrence lies in `v`
        subst hx; subst hv
        have hd2 : DerivN P k (u ++ (a2 ++ (interp b ++ y))) w := by
          simpa [List.append_assoc] using hd
        obtain ⟨n1, n2, w1, w2, hn, hw, d1, d2⟩ := ih k (by omega) hd2
        have hstep : StepR P (a2 ++ N :: y) (a2 ++ (interp b ++ y)) :=
          StepR.mk a2 y N b hb
        exact ⟨n1, n2 + 1, w1, w2, by omega, hw, d1, DerivN.step hstep d2⟩
      · cases c2 with
        | nil =>
          -- `u` is exactly the left part; the step happens in `v`
          simp at hu2 hy2
          subst hu2
          have hd2 : DerivN P k (u ++ (interp b ++ y)) w := by
            simpa [List.append_assoc] using hd
          obtain ⟨n1, n2, w1, w2, hn, hw, d1, d2⟩ := ih k (by omega) hd2
          have hstep : StepR P (N :: y) (interp b ++ y) := by
            have h3 := StepR.mk (P := P) [] y N b hb
            simpa using h3
          refine ⟨n1, n2 + 1, w1, w2, by omega, hw, d1, ?_⟩
          rw [← hy2]
          exact DerivN.step hstep d2
        | cons c c3 =>
          -- the rewritten occurrence lies in `u`
          simp at hy2
          obtain ⟨hcN, hy3⟩ := hy2
          subst hcN; subst hu2
          have hd2 : DerivN P k ((x ++ (interp b ++ c3)) ++ v) w := by
            rw [hy3] at hd
            simpa [List.append_assoc] using hd
          obtain ⟨n1, n2, w1, w2, hn, hw, d1, d2⟩ := ih k (by omega) hd2
          have hstep : StepR P (x ++ N :: c3) (x ++ (interp b ++ c3)) :=
            StepR.mk x c3 N b hb
          exact ⟨n1 + 1, n2, w1, w2, by omega, hw, DerivN.step hstep d1, d2⟩

/-- `"is this a string of terminals"`. -/
def TStr (w : List Char) : Bool := w.all is_terminal

theorem derivN_nil_chars {P : Productions} :
    ∀ (b : List Char) {n : Nat}, DerivN P n b [] →
      ∀ c ∈ b, ∃ m, m ≤ n ∧ DerivN P m [c] [] := by
  intro b
  induction b with
  | nil => intro n _ c hc; exact absurd hc (List.not_mem_nil c)
  | cons a t ih =>
    intro n h c hc
    have h2 : DerivN P n ([a] ++ t) [] := by simpa using h
    obtain ⟨n1, n2, w1, w2, hn, hw, d1, d2⟩ := derivN_split n h2
    obtain ⟨hw1, hw2⟩ := List.append_eq_nil.mp hw.symm
    subst hw1; subst hw2
    rcases List.mem_cons.mp hc with hca | hct
    · subst hca; exact ⟨n1, by omega, d1⟩
    · obtain ⟨m, hm, dm⟩ := ih d2 c hct
      exact ⟨m, by omega, dm⟩

theorem derivN_term_chars {P : Productions} :
    ∀ (b : List Char) {n : Nat} {w : List Char}, DerivN P n b w → TStr w = true →
      ∀ c ∈ b, ∃ m wc, m ≤ n ∧ DerivN P m [c] wc ∧ TStr wc = true := by
  intro b
  induction b with
  | nil => intro n w _ _ c hc; exact absurd hc (List.not_mem_nil c)
  | cons a t ih =>
    intro n w h hterm c hc
    have h2 : DerivN P n ([a] ++ t) w := by simpa using h
    obtain ⟨n1, n2, w1, w2, hn, hw, d1, d2⟩ := derivN_split n h2
    subst hw
    have ht1 : TStr w1 = true ∧ TStr w2 = true := by
      simpa [TStr, List.all_append, Bool.and_eq_true] using hterm
    rcases List.mem_cons.mp hc with hca | hct
    · subst hca; exact ⟨n1, w1, by omega, d1, ht1.1⟩
    · obtain ⟨m, wc, hm, dm, hwc⟩ := ih d2 ht1.2 c hct
      exact ⟨m, wc, by omega, dm, hwc⟩

theorem derivN_all_nil {P : Productions} :
    ∀ (b : List Char), (∀ c ∈ b, ∃ m, DerivN P m [c] []) → ∃ m, DerivN P m b [] := by
  intro b
  induction b with
  | nil => intro _; exact ⟨0, DerivN.refl []⟩
  | cons a t ih =>
    intro h
    obtain ⟨m1, d1⟩ := h a (by simp)
    obtain ⟨m2, d2⟩ := ih (fun c hc => h c (by simp [hc]))
    refine ⟨m1 + m2, ?_⟩
    have h3 := derivN_append d1 d2
    simpa using h3

theorem stepR_singleton {P : Productions} {N : Char} {v : List Char} (h : StepR P [N] v) :
    ∃ b, b ∈ getD P (chStr N) ∧ v = interp b := by
  obtain ⟨x, y, M, b, hb, hu, hv⟩ := stepR_inv h
  cases x with
  | nil =>
    simp at hu
    obtain ⟨h1, h2⟩ := hu
    subst h1; subst h2
    exact ⟨b, hb, by simpa using hv⟩
  | cons a x2 =>
    simp at hu

/-! ## Well-formed grammars (the shape `parse_grammar_file` produces) -/

/-- A body the parser can produce: the ε marker alone, or a nonempty string
over `VALID_BODY_CHARS` (ASCII letters and digits). -/
def WFbody (b : Body) : Bool :=
  b == epsB || (!(b.isEmpty) && b.all (fun c => c.isLower || c.isDigit || c.isUpper))

/-- A nonterminal name as the parser produces it: one uppercase letter. -/
def isNTName (A : String) : Bool :=
  match A.data with
  | [c] => is_nonterminal c
  | _ => false

/-- Well-formedness of a parsed grammar: distinct keys (it is a `dict`),
each key a single uppercase letter, bodies parser-shaped. -/
def WFP (P : Productions) : Bool :=
  decide ((keysList P).Nodup) && P.all (fun p => isNTName p.1 && p.2.all WFbody)

theorem WFP_nodup {P : Productions} (h : WFP P = true) : (keysList P).Nodup := by
  unfold WFP at h
  rw [Bool.and_eq_true] at h
  exact of_decide_eq_true h.1

theorem WFP_entry {P : Productions} (h : WFP P = true) {p : String × List Body}
    (hp : p ∈ P) : isNTName p.1 = true ∧ ∀ b ∈ p.2, WFbody b = true := by
  unfold WFP at h
  rw [Bool.and_eq_true] at h
  have h2 := h.2
  rw [List.all_eq_true] at h2
  have h3 := h2 p hp
  rw [Bool.and_eq_true, List.all_eq_true] at h3
  exact h3

theorem isNTName_elim {A : String} (h : isNTName A = true) :
    ∃ c, A = chStr c ∧ is_nonterminal c = true := by
  unfold isNTName at h
  cases A with
  | mk data =>
    cases data with
    | nil => simp at h
    | cons c t =>
      cases t with
      | nil => exact ⟨c, rfl, h⟩
      | cons d t2 => simp at h

theorem chStr_inj {c d : Char} (h : chStr c = chStr d) : c = d := by
  unfold chStr at h
  have h2 : [c] = [d] := congrArg String.data h
  simpa using h2

/-! ## Association-list lemmas -/

theorem getD_cons (q : String × List Body) (t : Productions) (A : String) :
    getD (q :: t) A = if q.1 = A then q.2 else getD t A := by
  by_cases h : q.1 = A
  · unfold getD
    rw [List.find?_cons_of_pos _ (by simpa using h)]
    simp [h]
  · unfold getD
    rw [List.find?_cons_of_neg _ (by simpa using h)]
    simp [h]

theorem getD_of_mem {P : Productions} (hnd : (keysList P).Nodup)
    {p : String × List Body} (hp : p ∈ P) : getD P p.1 = p.2 := by
  induction P with
  | nil => cases hp
  | cons q t ih =>
    have hnd1 : (q.1 :: keysList t).Nodup := hnd
    have hnd2 := List.nodup_cons.mp hnd1
    rw [getD_cons]
    rcases List.mem_cons.mp hp with h | h
    · subst h; simp
    · have hne : q.1 ≠ p.1 := by
        intro he
        exact hnd2.1 (by rw [he]; exact List.mem_map.mpr ⟨p, h, rfl⟩)
      simp only [hne, if_false]
      exact ih hnd2.2 h

theorem getD_entry (P : Productions) (A : String) :
    getD P A = [] ∨ (A, getD P A) ∈ P := by
  unfold getD
  cases hf : P.find? (fun p => p.1 == A) with
  | none => exact Or.inl rfl
  | some p =>
    right
    have hmem := List.mem_of_find?_eq_some hf
    have hpred : p.1 = A := by simpa using List.find?_some hf
    have hpe : (A, p.2) = p := by
      cases p; simp_all
    rw [hpe]; exact hmem

theorem getD_eq_nil_of_not_mem {P : Productions} {A : String}
    (h : A ∉ keysList P) : getD P A = [] := by
  unfold getD
  have hf : P.find? (fun p => p.1 == A) = none := by
    rw [List.find?_eq_none]
    intro p hp hbe
    exact h (List.mem_map.mpr ⟨p, hp, by simpa using hbe⟩)
  rw [hf]

theorem mem_keys_of_getD_ne_nil {P : Productions} {A : String}
    (h : getD P A ≠ []) : A ∈ keysList P := by
  by_contra hc
  exact h (getD_eq_nil_of_not_mem hc)

theorem mem_getD_of_entry {P : Productions} (hnd : (keysList P).Nodup)
    {p : String × List Body} (hp : p ∈ P) {b : Body} (hb : b ∈ p.2) :
    b ∈ getD P p.1 := by
  rw [getD_of_mem hnd hp]; exact hb

/-! ## Character classes -/

theorem upper_not_terminal {c : Char} (h : is_nonterminal c = true) :
    is_terminal c = false := by
  simp only [is_nonterminal, Char.isUpper, Bool.and_eq_true, decide_eq_true_iff] at h
  obtain ⟨h1, h2⟩ := h
  have hn1 : 65 ≤ c.val.toNat := h1
  have hn2 : c.val.toNat ≤ 90 := h2
  simp only [is_terminal, Char.isLower, Char.isDigit, Bool.or_eq_false_iff,
    Bool.and_eq_false_iff, decide_eq_false_iff_not, beq_eq_false_iff_ne]
  refine ⟨⟨⟨?_, ?_⟩, ?_⟩, ?_⟩
  · left; intro hc; have h3 : 97 ≤ c.val.toNat := hc; omega
  · right; intro hc; have h3 : c.val.toNat ≤ 57 := hc; omega
  · rintro rfl; revert hn1 hn2; decide
  · rintro rfl; revert hn1 hn2; decide

theorem lower_terminal {c : Char} (h : c.isLower = true) : is_terminal c = true := by
  simp [is_terminal, h]

theorem digit_terminal {c : Char} (h : c.isDigit = true) : is_terminal c = true := by
  simp [is_terminal, h]

/-! ## Correctness of `find_nullable` -/

theorem keys_mem_toFinset {P : Productions} {p : String × List Body} (hp : p ∈ P) :
    p.1 ∈ (keysList P).toFinset :=
  List.mem_toFinset.mpr (List.mem_map.mpr ⟨p, hp, rfl⟩)

theorem nullablePass_inv (P : Productions) (s : Finset String)
    (hs : s ⊆ (keysList P).toFinset) : nullablePass P s ⊆ (keysList P).toFinset :=
  foldIns_subset _ _ P s _ hs (fun p hp => keys_mem_toFinset hp)

theorem nullable_isFix (st : String) (P : Productions) :
    nullablePass P (find_nullable st P) = find_nullable st P := by
  unfold find_nullable
  refine iterFix_fix (nullablePass P) (fun s => s ⊆ (keysList P).toFinset) Finset.card
      ((keysList P).toFinset.card) ?_ ?_ ?_ _ _ ?_ ?_
  · intro s hs; exact nullablePass_inv P s hs
  · intro s _ hne
    exact Finset.card_lt_card (Finset.ssubset_iff_subset_ne.mpr
      ⟨subset_foldIns _ _ _ _, fun h => hne h.symm⟩)
  · intro s hs; exact Finset.card_le_card hs
  · exact foldIns_subset _ _ P ∅ _ (Finset.empty_subset _) (fun p hp => keys_mem_toFinset hp)
  · omega

theorem nullable_seed_sub (st : String) (P : Productions) :
    nullableSeed P ⊆ find_nullable st P := by
  unfold find_nullable
  refine iterFix_inv _ (fun s => nullableSeed P ⊆ s) ?_ _ _ (Finset.Subset.refl _)
  intro s hs
  exact hs.trans (subset_foldIns _ _ _ _)

theorem nullable_closed (st : String) (P : Productions) {p : String × List Body}
    (hp : p ∈ P) (hb : p.2.any (nullableBodyOk (find_nullable st P)) = true) :
    p.1 ∈ find_nullable st P :=
  foldIns_fix_mem _ _ P _ (nullable_isFix st P) p hp hb

theorem foldIns_mem_const {α : Type _} (cond : α → Bool) (key : α → String) :
    ∀ (l : List α) (s : Finset String) (x : α), x ∈ l → cond x = true →
      key x ∈ foldIns (fun _ y => cond y) key l s := by
  intro l
  induction l with
  | nil => intro s x hx; cases hx
  | cons a t ih =>
    intro s x hx hc
    rcases List.mem_cons.mp hx with h | h
    · subst h
      have h1 : key x ∈ (if cond x then insert (key x) s else s) := by simp [hc]
      exact subset_foldIns (fun _ y => cond y) key t _ h1
    · exact ih _ x h hc

theorem nullable_seed_mem (P : Productions) {p : String × List Body}
    (hp : p ∈ P) (he : epsB ∈ p.2) : p.1 ∈ nullableSeed P :=
  foldIns_mem_const _ _ P ∅ p hp (decide_eq_true he)

theorem derivN_one_body {P : Productions} {c : Char} {b : Body}
    (hb : b ∈ getD P (chStr c)) : DerivN P 1 [c] (interp b) := by
  have h := DerivN.step (StepR.mk (P := P) [] [] c b hb) (DerivN.refl _)
  simpa using h

theorem nullable_sound (st : String) (P : Productions) (hwf : WFP P = true) :
    ∀ A ∈ find_nullable st P, ∃ c, A = chStr c ∧ ∃ n, DerivN P n [c] [] := by
  unfold find_nullable
  refine iterFix_inv _ (fun s => ∀ A ∈ s, ∃ c, A = chStr c ∧ ∃ n, DerivN P n [c] []) ?_ _ _ ?_
  · intro s hs
    unfold nullablePass
    refine foldIns_sound _ _ _ P s hs ?_
    intro s2 p hp hq hcond
    obtain ⟨hnt, hwb⟩ := WFP_entry hwf hp
    obtain ⟨c0, hc0, hnt0⟩ := isNTName_elim hnt
    refine ⟨c0, hc0, ?_⟩
    rw [List.any_eq_true] at hcond
    obtain ⟨b, hbmem, hok⟩ := hcond
    have hbget : b ∈ getD P p.1 := mem_getD_of_entry (WFP_nodup hwf) hp hbmem
    rw [hc0] at hbget
    unfold nullableBodyOk at hok
    rw [Bool.or_eq_true] at hok
    by_cases hbe : b = epsB
    · subst hbe
      exact ⟨1, by simpa [interp] using derivN_one_body hbget⟩
    · have hall : ∀ ch ∈ b,
          (!(is_terminal ch) && (!(is_nonterminal ch) || decide (chStr ch ∈ s2))) = true := by
        rcases hok with h | h
        · exact absurd (by simpa using h) hbe
        · exact List.all_eq_true.mp h
      have hchar : ∀ ch ∈ b, ∃ m, DerivN P m [ch] [] := by
        intro ch hch
        have h2 := hall ch hch
        rw [Bool.and_eq_true] at h2
        have hwb2 := hwb b hbmem
        unfold WFbody at hwb2
        rw [Bool.or_eq_true] at hwb2
        rcases hwb2 with h3 | h3
        · exact absurd (by simpa using h3) hbe
        · rw [Bool.and_eq_true, List.all_eq_true] at h3
          have h4 := h3.2 ch hch
          rw [Bool.or_eq_true, Bool.or_eq_true] at h4
          rcases h4 with (h5 | h5) | h5
          · exact absurd (lower_terminal h5) (by simpa using h2.1)
          · exact absurd (digit_terminal h5) (by simpa using h2.1)
          · have h6 := h2.2
            rw [Bool.or_eq_true] at h6
            rcases h6 with h7 | h7
            · rw [show is_nonterminal ch = true from h5] at h7; simp at h7
            · obtain ⟨c2, hc2, n2, hd2⟩ := hq _ (of_decide_eq_true h7)
              have hce : c2 = ch := chStr_inj hc2.symm
              subst hce
              exact ⟨n2, hd2⟩
      obtain ⟨m, hmb⟩ := derivN_all_nil b hchar
      have hstep : DerivN P 1 [c0] b := by
        simpa [interp, hbe] using derivN_one_body hbget
      exact ⟨1 + m, derivN_trans hstep hmb⟩
  · intro A hA
    unfold nullableSeed at hA
    refine foldIns_sound _ _ (fun A => ∃ c, A = chStr c ∧ ∃ n, DerivN P n [c] [])
      P ∅ ?_ ?_ A hA
    · intro y hy; exact absurd hy (Finset.not_mem_empty y)
    · intro s2 p hp _ hcond
      obtain ⟨hnt, -⟩ := WFP_entry hwf hp
      obtain ⟨c0, hc0, -⟩ := isNTName_elim hnt
      have he : epsB ∈ p.2 := of_decide_eq_true hcond
      have hbget : epsB ∈ getD P p.1 := mem_getD_of_entry (WFP_nodup hwf) hp he
      rw [hc0] at hbget
      exact ⟨c0, hc0, 1, by simpa [interp] using derivN_one_body hbget⟩

theorem getD_ne_nil_of_deriv {P : Productions} {c : Char} {m : Nat}
    (h : DerivN P m [c] []) : getD P (chStr c) ≠ [] := by
  cases h with
  | step hs hrest =>
    obtain ⟨b, hb, -⟩ := stepR_singleton hs
    intro h0
    rw [h0] at hb
    exact absurd hb (List.not_mem_nil b)

theorem nullable_complete (st : String) (P : Productions) (hwf : WFP P = true) :
    ∀ (n : Nat) (c : Char), DerivN P n [c] [] → chStr c ∈ find_nullable st P := by
  intro n
  induction n using Nat.strong_induction_on with
  | _ n ih =>
    intro c hd
    cases hd with
    | step hs hrest =>
      rename_i k v
      obtain ⟨b, hb, hv⟩ := stepR_singleton hs
      subst hv
      by_cases hbe : b = epsB
      · subst hbe
        rcases getD_entry P (chStr c) with h0 | hmem
        · rw [h0] at hb; exact absurd hb (List.not_mem_nil _)
        · exact nullable_seed_sub st P (nullable_seed_mem P hmem hb)
      · have hbv : DerivN P k b [] := by simpa [interp, hbe] using hrest
        rcases getD_entry P (chStr c) with h0 | hmem
        · rw [h0] at hb; exact absurd hb (List.not_mem_nil _)
        · refine nullable_closed st P hmem ?_
          rw [List.any_eq_true]
          refine ⟨b, hb, ?_⟩
          unfold nullableBodyOk
          rw [Bool.or_eq_true]
          right
          rw [List.all_eq_true]
          intro ch hch
          obtain ⟨m, hmk, hdm⟩ := derivN_nil_chars b hbv ch hch
          have hne := getD_ne_nil_of_deriv hdm
          rcases getD_entry P (chStr ch) with h1 | hmem2
          · exact absurd h1 hne
          · obtain ⟨hnt2, -⟩ := WFP_entry hwf hmem2
            obtain ⟨c2, hc2, hend⟩ := isNTName_elim hnt2
            have hceq : c2 = ch := chStr_inj hc2.symm
            rw [hceq] at hend
            rw [Bool.and_eq_true]
            refine ⟨by rw [upper_not_terminal hend]; rfl, ?_⟩
            rw [Bool.or_eq_true]
            right
            exact decide_eq_true (ih m (by omega) ch hdm)

/-- C5.  `find_nullable` computes exactly the nonterminals that derive the
empty string: for every parser-shaped grammar and every character `c`, the
name of `c` is in the computed set iff `[c]` derives ε.  (In particular this
holds for every nonterminal `A` of `G`, as the claim states.) -/
theorem claim_C5 (st : String) (P : Productions) (c : Char) (hwf : WFP P = true) :
    chStr c ∈ find_nullable st P ↔ ∃ n, DerivN P n [c] [] := by
  constructor
  · intro h
    obtain ⟨c2, hc2, n, hd⟩ := nullable_sound st P hwf (chStr c) h
    have hce : c2 = c := chStr_inj hc2.symm
    subst hce
    exact ⟨n, hd⟩
  · rintro ⟨n, h⟩
    exact nullable_complete st P hwf n c h

/-- Witness for C5 at the concrete grammar `S -> a | ε`. -/
theorem claim_C5_witness :
    WFP [("S", [['a'], ['ε']])] = true ∧
      (chStr 'S' ∈ find_nullable "S" [("S", [['a'], ['ε']])] ↔
        ∃ n, DerivN [("S", [['a'], ['ε']])] n ['S'] []) :=
  ⟨by decide, claim_C5 "S" [("S", [['a'], ['ε']])] 'S' (by decide)⟩

/-! ## The subset-candidate machinery of `eliminate_epsilon` -/

theorem positionsOf_cons (N : Finset String) (i : Nat) (c : Char) (t : List Char) :
    positionsOf N i (c :: t) =
      if (is_nonterminal c && decide (chStr c ∈ N)) = true then i :: positionsOf N (i + 1) t
      else positionsOf N (i + 1) t := rfl

theorem maskKeep_cons (pos : List Nat) (mask : Nat) (i : Nat) (c : Char) (t : List Char) :
    maskKeep pos mask i (c :: t) =
      if (pos.contains i && mask.testBit (pos.indexOf i)) = true then maskKeep pos mask (i + 1) t
      else c :: maskKeep pos mask (i + 1) t := rfl

theorem maskKeep_zero (pos : List Nat) : ∀ (i : Nat) (b : Body), maskKeep pos 0 i b = b := by
  intro i b
  induction b generalizing i with
  | nil => rfl
  | cons c t ih =>
    unfold maskKeep
    rw [Nat.zero_testBit]
    simp [ih]

theorem maskKeep_sublist (pos : List Nat) (mask : Nat) :
    ∀ (i : Nat) (b : Body), List.Sublist (maskKeep pos mask i b) b := by
  intro i b
  induction b generalizing i with
  | nil => exact List.Sublist.refl []
  | cons c t ih =>
    unfold maskKeep
    by_cases h : (pos.contains i && mask.testBit (pos.indexOf i)) = true
    · rw [if_pos h]
      exact List.Sublist.cons c (ih (i + 1))
    · rw [if_neg h]
      exact List.Sublist.cons₂ c (ih (i + 1))

theorem positionsOf_lb (N : Finset String) :
    ∀ (b : Body) (i : Nat) (j : Nat), j ∈ positionsOf N i b → i ≤ j := by
  intro b
  induction b with
  | nil => intro i j h; cases h
  | cons c t ih =>
    intro i j h
    unfold positionsOf at h
    by_cases hc : (is_nonterminal c && decide (chStr c ∈ N)) = true
    · rw [if_pos hc] at h
      rcases List.mem_cons.mp h with h2 | h2
      · omega
      · have := ih (i + 1) j h2; omega
    · rw [if_neg hc] at h
      have := ih (i + 1) j h; omega

theorem maskKeep_cons_shift (i : Nat) (pos : List Nat) (mask : Nat) :
    ∀ (b : Body) (j : Nat), i < j →
      maskKeep (i :: pos) mask j b = maskKeep pos (mask / 2) j b := by
  intro b
  induction b with
  | nil => intro j _; rfl
  | cons c t ih =>
    intro j hij
    have hne : j ≠ i := by omega
    have hcont : (i :: pos).contains j = pos.contains j := by
      simp [List.contains_cons, hne]
    have hidx : (i :: pos).indexOf j = pos.indexOf j + 1 :=
      List.indexOf_cons_ne pos (fun he => hne he.symm)
    unfold maskKeep
    rw [hcont, hidx, Nat.testBit_succ, ih (j + 1) (by omega)]

theorem maskKeep_allOnes (N : Finset String) :
    ∀ (b : Body) (i : Nat), (∀ c ∈ b, is_nonterminal c = true ∧ chStr c ∈ N) →
      maskKeep (positionsOf N i b) (2 ^ b.length - 1) i b = [] := by
  intro b
  induction b with
  | nil => intro i _; rfl
  | cons c t ih =>
    intro i hall
    have hc := hall c (by simp)
    have hcond : (is_nonterminal c && decide (chStr c ∈ N)) = true := by
      rw [Bool.and_eq_true]
      exact ⟨hc.1, decide_eq_true hc.2⟩
    have hpos : positionsOf N i (c :: t) = i :: positionsOf N (i + 1) t := by
      rw [positionsOf_cons, if_pos hcond]
    have hlen : (c :: t).length = t.length + 1 := rfl
    have hpow : 2 ^ (t.length + 1) = 2 * 2 ^ t.length := by
      rw [Nat.pow_succ]; omega
    have hodd : (2 ^ (c :: t).length - 1) % 2 = 1 := by
      rw [hlen, hpow]
      have := Nat.two_pow_pos t.length
      omega
    have hbit : Nat.testBit (2 ^ (c :: t).length - 1) 0 = true := by
      rw [Nat.testBit_zero]
      exact decide_eq_true hodd
    have hdiv : (2 ^ (c :: t).length - 1) / 2 = 2 ^ t.length - 1 := by
      rw [hlen, hpow]
      have := Nat.two_pow_pos t.length
      omega
    rw [hpos]
    unfold maskKeep
    have hhead : ((i :: positionsOf N (i + 1) t).contains i &&
        Nat.testBit (2 ^ (c :: t).length - 1) ((i :: positionsOf N (i + 1) t).indexOf i)) = true := by
      rw [List.indexOf_cons_self]
      rw [Bool.and_eq_true]
      refine ⟨?_, hbit⟩
      exact List.elem_eq_true_of_mem (by simp)
    rw [if_pos hhead]
    rw [maskKeep_cons_shift i _ _ t (i + 1) (by omega), hdiv]
    exact ih (i + 1) (fun d hd => hall d (by simp [hd]))

theorem maskKeep_nil_all (N : Finset String) :
    ∀ (b : Body) (i mask : Nat), maskKeep (positionsOf N i b) mask i b = [] →
      ∀ c ∈ b, is_nonterminal c = true ∧ chStr c ∈ N := by
  intro b
  induction b with
  | nil => intro i mask _ c hc; cases hc
  | cons c t ih =>
    intro i mask hnil d hd
    by_cases hcond : (is_nonterminal c && decide (chStr c ∈ N)) = true
    · have hpos : positionsOf N i (c :: t) = i :: positionsOf N (i + 1) t := by
        rw [positionsOf_cons, if_pos hcond]
      rw [hpos] at hnil
      unfold maskKeep at hnil
      by_cases hdrop : ((i :: positionsOf N (i + 1) t).contains i &&
          Nat.testBit mask ((i :: positionsOf N (i + 1) t).indexOf i)) = true
      · rw [if_pos hdrop] at hnil
        rw [maskKeep_cons_shift i _ _ t (i + 1) (by omega)] at hnil
        rcases List.mem_cons.mp hd with h2 | h2
        · subst h2
          rw [Bool.and_eq_true] at hcond
          exact ⟨hcond.1, of_decide_eq_true hcond.2⟩
        · exact ih (i + 1) (mask / 2) hnil d h2
      · rw [if_neg hdrop] at hnil
        cases hnil
    · have hpos : positionsOf N i (c :: t) = positionsOf N (i + 1) t := by
        rw [positionsOf_cons, if_neg hcond]
      rw [hpos] at hnil
      unfold maskKeep at hnil
      have hnc : (positionsOf N (i + 1) t).contains i = false := by
        by_contra hx
        have hmem : i ∈ positionsOf N (i + 1) t := by
          have h9 := Bool.not_eq_false _ |>.mp hx
          exact List.elem_iff.mp h9
        have := positionsOf_lb N t (i + 1) i hmem
        omega
      rw [hnc] at hnil
      simp at hnil

theorem self_mem_candidates (N : Finset String) (b : Body) : b ∈ candidatesList N b := by
  unfold candidatesList
  refine List.mem_map.mpr ⟨0, ?_, maskKeep_zero _ 0 b⟩
  exact List.mem_range.mpr (Nat.two_pow_pos _)

theorem candidates_sublist {N : Finset String} {b x : Body}
    (h : x ∈ candidatesList N b) : List.Sublist x b := by
  unfold candidatesList at h
  obtain ⟨mask, -, hm⟩ := List.mem_map.mp h
  rw [← hm]
  exact maskKeep_sublist _ mask 0 b

theorem nil_mem_candidates_of_all {N : Finset String} {b : Body}
    (hall : ∀ c ∈ b, is_nonterminal c = true ∧ chStr c ∈ N) :
    [] ∈ candidatesList N b := by
  unfold candidatesList
  refine List.mem_map.mpr ⟨2 ^ (positionsOf N 0 b).length - 1, ?_, ?_⟩
  · refine List.mem_range.mpr ?_
    have := Nat.two_pow_pos (positionsOf N 0 b).length
    omega
  · -- the positions list covers the whole body, so its length is the body's
    -- length; rather than compute it, reuse the all-ones lemma, which is
    -- stated with the body-length mask
    have h1 := maskKeep_allOnes N b 0 hall
    -- show the two masks agree: positions length = body length in this case
    have hlen : (positionsOf N 0 b).length = b.length := by
      clear h1
      suffices h : ∀ (b2 : Body) (i : Nat), (∀ c ∈ b2, is_nonterminal c = true ∧ chStr c ∈ N) →
          (positionsOf N i b2).length = b2.length by
        exact h b 0 hall
      intro b2
      induction b2 with
      | nil => intro i _; rfl
      | cons c t ih =>
        intro i h2
        have hc := h2 c (by simp)
        have hcond : (is_nonterminal c && decide (chStr c ∈ N)) = true := by
          rw [Bool.and_eq_true]; exact ⟨hc.1, decide_eq_true hc.2⟩
        unfold positionsOf
        rw [if_pos hcond]
        simp [ih (i + 1) (fun d hd => h2 d (by simp [hd]))]
    rw [hlen]
    exact h1

/-! ## Membership in the sets `eliminate_epsilon` builds -/

theorem mem_insertBody {l : List Body} {b x : Body} :
    x ∈ insertBody l b ↔ x ∈ l ∨ x = b := by
  unfold insertBody
  by_cases h : b ∈ l
  · rw [if_pos h]
    constructor
    · exact Or.inl
    · rintro (hx | hx)
      · exact hx
      · rw [hx]; exact h
  · rw [if_neg h]
    simp [List.mem_append]

theorem mem_unionBodies {m l : List Body} {x : Body} :
    x ∈ unionBodies l m ↔ x ∈ l ∨ x ∈ m := by
  unfold unionBodies
  induction m generalizing l with
  | nil => simp
  | cons b t ih =>
    rw [List.foldl_cons, ih]
    rw [mem_insertBody]
    constructor
    · rintro ((h | h) | h)
      · exact Or.inl h
      · exact Or.inr (by simp [h])
      · exact Or.inr (by simp [h])
    · rintro (h | h)
      · exact Or.inl (Or.inl h)
      · rcases List.mem_cons.mp h with h2 | h2
        · exact Or.inl (Or.inr h2)
        · exact Or.inr h2

theorem processFold_cases (start A : String) (keep : Bool) :
    ∀ (l : List Body) (acc : List Body) (x : Body),
      x ∈ l.foldl (fun acc c =>
        if c = [] then (if A = start ∧ keep = true then insertBody acc epsB else acc)
        else insertBody acc c) acc →
      x ∈ acc ∨ (x ∈ l ∧ x ≠ []) ∨ (x = epsB ∧ A = start ∧ keep = true ∧ [] ∈ l) := by
  intro l
  induction l with
  | nil => intro acc x hx; exact Or.inl hx
  | cons c t ih =>
    intro acc x hx
    rw [List.foldl_cons] at hx
    rcases ih _ x hx with h | h | h
    · by_cases hc : c = []
      · rw [if_pos hc] at h
        by_cases hsk : A = start ∧ keep = true
        · rw [if_pos hsk] at h
          rcases mem_insertBody.mp h with h2 | h2
          · exact Or.inl h2
          · exact Or.inr (Or.inr ⟨h2, hsk.1, hsk.2, by rw [← hc]; simp⟩)
        · rw [if_neg hsk] at h
          exact Or.inl h
      · rw [if_neg hc] at h
        rcases mem_insertBody.mp h with h2 | h2
        · exact Or.inl h2
        · exact Or.inr (Or.inl ⟨by simp [h2], by rw [h2]; exact hc⟩)
    · exact Or.inr (Or.inl ⟨by simp [h.1], h.2⟩)
    · exact Or.inr (Or.inr ⟨h.1, h.2.1, h.2.2.1, by simp [h.2.2.2]⟩)

theorem mem_processBody_cases {start A : String} {keep : Bool} {N : Finset String}
    {b x : Body} (hx : x ∈ processBody start A keep N b) :
    b ≠ epsB ∧ (x = b ∨ (x ∈ candidatesList N b ∧ x ≠ []) ∨
      (x = epsB ∧ A = start ∧ keep = true ∧ [] ∈ candidatesList N b)) := by
  unfold processBody at hx
  by_cases hbe : b = epsB
  · rw [if_pos hbe] at hx; cases hx
  · rw [if_neg hbe] at hx
    refine ⟨hbe, ?_⟩
    by_cases hg : processGen start A keep N b = []
    · rw [if_pos hg] at hx
      rcases List.mem_cons.mp hx with h2 | h2
      · exact Or.inl h2
      · cases h2
    · rw [if_neg hg] at hx
      unfold processGen at hx
      rcases processFold_cases start A keep (candidatesList N b) [] x hx with h | h | h
      · cases h
      · exact Or.inr (Or.inl h)
      · exact Or.inr (Or.inr h)

theorem mem_unionFold {g : Body → List Body} :
    ∀ (l : List Body) (acc : List Body) (x : Body),
      x ∈ l.foldl (fun acc b => unionBodies acc (g b)) acc →
      x ∈ acc ∨ ∃ b ∈ l, x ∈ g b := by
  intro l
  induction l with
  | nil => intro acc x hx; exact Or.inl hx
  | cons c t ih =>
    intro acc x hx
    rw [List.foldl_cons] at hx
    rcases ih _ x hx with h | ⟨b, hb, hx2⟩
    · rcases mem_unionBodies.mp h with h2 | h2
      · exact Or.inl h2
      · exact Or.inr ⟨c, by simp, h2⟩
    · exact Or.inr ⟨b, by simp [hb], hx2⟩

/-! ## Reading entries of mapped and updated mappings -/

theorem keysList_map_val (f : String → List Body → List Body) (P : Productions) :
    keysList (P.map (fun p => (p.1, f p.1 p.2))) = keysList P := by
  unfold keysList
  rw [List.map_map]
  rfl

theorem getD_map_val (f : String → List Body → List Body) (P : Productions) (A : String) :
    getD (P.map (fun p => (p.1, f p.1 p.2))) A =
      if A ∈ keysList P then f A (getD P A) else [] := by
  induction P with
  | nil => simp [getD, keysList]
  | cons q t ih =>
    rw [List.map_cons, getD_cons, getD_cons]
    by_cases h : q.1 = A
    · subst h
      rw [if_pos rfl, if_pos rfl, if_pos (by exact List.mem_cons_self _ _)]
    · rw [if_neg h, if_neg h, ih]
      by_cases hmem : A ∈ keysList t
      · rw [if_pos hmem, if_pos (by exact List.mem_cons_of_mem _ hmem)]
      · rw [if_neg hmem, if_neg ?_]
        intro hc
        rcases List.mem_cons.mp hc with h2 | h2
        · exact h h2.symm
        · exact hmem h2

theorem keysList_addB (P : Productions) (A : String) (b : Body) :
    keysList (addB P A b) = keysList P := by
  induction P with
  | nil => rfl
  | cons q t ih =>
    unfold addB
    by_cases h : q.1 = A
    · rw [if_pos h]; rfl
    · rw [if_neg h]
      show _ :: keysList (addB t A b) = _ :: keysList t
      rw [ih]

theorem getD_addB (P : Productions) (A : String) (b : Body) (B : String) :
    getD (addB P A b) B =
      if B = A ∧ A ∈ keysList P then insertBody (getD P B) b else getD P B := by
  induction P with
  | nil =>
    have hk : A ∉ keysList ([] : Productions) := by simp [keysList]
    simp [addB, hk]
  | cons q t ih =>
    unfold addB
    by_cases h : q.1 = A
    · rw [if_pos h, getD_cons, getD_cons]
      by_cases h2 : q.1 = B
      · rw [if_pos h2, if_pos h2]
        have hBA : B = A := by rw [← h2, h]
        rw [if_pos ⟨hBA, by rw [← h]; exact List.mem_cons_self _ _⟩]
      · rw [if_neg h2, if_neg h2]
        have hBA : ¬(B = A) := fun he => h2 (by rw [h, ← he])
        rw [if_neg (fun hand => hBA hand.1)]
    · rw [if_neg h]
      rw [getD_cons, getD_cons]
      by_cases h2 : q.1 = B
      · rw [if_pos h2, if_pos h2]
        have hBA : ¬(B = A) := fun he => h (by rw [h2, he])
        rw [if_neg (fun hand => hBA hand.1)]
      · rw [if_neg h2, if_neg h2, ih]
        by_cases hcond : B = A ∧ A ∈ keysList t
        · rw [if_pos hcond, if_pos ⟨hcond.1, List.mem_cons_of_mem _ hcond.2⟩]
        · rw [if_neg hcond, if_neg ?_]
          intro hc
          rcases List.mem_cons.mp hc.2 with h3 | h3
          · exact h h3.symm
          · exact hcond ⟨hc.1, h3⟩

theorem nullable_sub_keys (st : String) (P : Productions) :
    find_nullable st P ⊆ (keysList P).toFinset := by
  unfold find_nullable
  refine iterFix_inv _ (fun s => s ⊆ (keysList P).toFinset) ?_ _ _ ?_
  · exact fun s hs => nullablePass_inv P s hs
  · exact foldIns_subset _ _ P ∅ _ (Finset.empty_subset _) (fun p hp => keys_mem_toFinset hp)

theorem valid_ne_eps {c : Char} (h : (c.isLower || c.isDigit || c.isUpper) = true) :
    c ≠ 'ε' := by
  rintro rfl
  revert h; decide

theorem eps_not_mem_of_WF {b : Body} (hwf : WFbody b = true) (hne : b ≠ epsB) : 'ε' ∉ b := by
  unfold WFbody at hwf
  rw [Bool.or_eq_true] at hwf
  rcases hwf with h | h
  · exact absurd (by simpa using h) hne
  · rw [Bool.and_eq_true, List.all_eq_true] at h
    intro hmem
    exact absurd rfl (valid_ne_eps (h.2 'ε' hmem))

/-! ## The ε bodies of `eliminate_epsilon`'s output -/

theorem getD_elimEpsBase (start : String) (keep : Bool) (N : Finset String)
    (P : Productions) (A : String) :
    getD (elimEpsBase start keep N P) A =
      if A ∈ keysList P then
        (getD P A).foldl (fun acc b => unionBodies acc (processBody start A keep N b)) []
      else [] :=
  getD_map_val
    (fun B bs => bs.foldl (fun acc b => unionBodies acc (processBody start B keep N b)) []) P A

theorem keysList_elimEpsBase (start : String) (keep : Bool) (N : Finset String)
    (P : Productions) : keysList (elimEpsBase start keep N P) = keysList P :=
  keysList_map_val
    (fun B bs => bs.foldl (fun acc b => unionBodies acc (processBody start B keep N b)) []) P

theorem getD_elimFinal (Q : Productions) (start A : String) :
    getD (Q.map (fun p =>
        (p.1, if p.1 = start then p.2 else p.2.filter (fun b => !(b == epsB))))) A =
      if A ∈ keysList Q then
        (if A = start then getD Q A else (getD Q A).filter (fun b => !(b == epsB)))
      else [] :=
  getD_map_val (fun B bs => if B = start then bs else bs.filter (fun b => !(b == epsB))) Q A

/-- The start symbol qualifies as nullable through a body whose characters
are all nullable nonterminals. -/
theorem nullable_of_all_nullable_body (st : String) (P : Productions)
    {A : String} {b : Body} (hb : b ∈ getD P A)
    (hall : ∀ c ∈ b, is_nonterminal c = true ∧ chStr c ∈ find_nullable st P) :
    A ∈ find_nullable st P := by
  have hne : getD P A ≠ [] := by
    intro h0; rw [h0] at hb; exact absurd hb (List.not_mem_nil b)
  rcases getD_entry P A with h0 | hmem
  · exact absurd h0 hne
  · refine nullable_closed st P hmem ?_
    rw [List.any_eq_true]
    refine ⟨b, hb, ?_⟩
    unfold nullableBodyOk
    rw [Bool.or_eq_true]
    right
    rw [List.all_eq_true]
    intro c hc
    obtain ⟨hnt, hmemN⟩ := hall c hc
    rw [Bool.and_eq_true]
    refine ⟨by rw [upper_not_terminal hnt]; rfl, ?_⟩
    rw [Bool.or_eq_true]
    exact Or.inr (decide_eq_true hmemN)

/-- The complete characterization of ε bodies in `eliminate_epsilon`'s
output: ε appears exactly at the start symbol, exactly when retention is on
and the start symbol is in the computed nullable set. -/
theorem eps_mem_elim_iff (start : String) (P : Productions) (keep : Bool) (A : String)
    (hwf : WFP P = true) :
    epsB ∈ getD (eliminate_epsilon start P keep) A ↔
      keep = true ∧ A = start ∧ start ∈ find_nullable start P := by
  have hgoal : eliminate_epsilon start P keep =
      (if keep = true ∧ start ∈ find_nullable start P
        then addB (elimEpsBase start keep (find_nullable start P) P) start epsB
        else elimEpsBase start keep (find_nullable start P) P).map
        (fun p => (p.1, if p.1 = start then p.2 else p.2.filter (fun b => !(b == epsB)))) := rfl
  rw [hgoal]
  rw [getD_elimFinal]
  -- an ε body of the pre-fixup mapping forces start-nullability
  have hbase : ∀ B, epsB ∈ getD (elimEpsBase start keep (find_nullable start P) P) B →
      B = start ∧ keep = true ∧ start ∈ find_nullable start P := by
    intro B hB
    rw [getD_elimEpsBase] at hB
    by_cases hkB : B ∈ keysList P
    · rw [if_pos hkB] at hB
      rcases mem_unionFold _ _ _ hB with h | ⟨b0, hb0, hx⟩
      · cases h
      · obtain ⟨hb0ne, hcases⟩ := mem_processBody_cases hx
        have hwfb : WFbody b0 = true := by
          have hne : getD P B ≠ [] := by
            intro h0; rw [h0] at hb0; exact absurd hb0 (List.not_mem_nil b0)
          rcases getD_entry P B with h0 | hmem
          · exact absurd h0 hne
          · exact (WFP_entry hwf hmem).2 b0 hb0
        rcases hcases with h | h | h
        · exact absurd h.symm hb0ne
        · -- ε is a candidate, so 'ε' occurs in a parser-shaped non-ε body
          exfalso
          have hsub := candidates_sublist h.1
          have hmem2 : 'ε' ∈ b0 := hsub.subset (by simp [epsB])
          exact eps_not_mem_of_WF hwfb hb0ne hmem2
        · obtain ⟨-, hBs, hk, hnilmem⟩ := h
          refine ⟨hBs, hk, ?_⟩
          -- an all-dropped candidate means every character of b0 is a
          -- nullable nonterminal, so B (= start) is nullable
          obtain ⟨mask, -, hmk⟩ := List.mem_map.mp hnilmem
          have hall := maskKeep_nil_all (find_nullable start P) b0 0 mask hmk
          have hBnull := nullable_of_all_nullable_body start P hb0 hall
          rwa [hBs] at hBnull
    · rw [if_neg hkB] at hB
      cases hB
  by_cases hks : keep = true ∧ start ∈ find_nullable start P
  · rw [if_pos hks]
    rw [keysList_addB, keysList_elimEpsBase]
    by_cases hA : A ∈ keysList P
    · rw [if_pos hA]
      by_cases hAs : A = start
      · rw [if_pos hAs, getD_addB, keysList_elimEpsBase]
        subst hAs
        rw [if_pos ⟨rfl, hA⟩]
        constructor
        · intro _; exact ⟨hks.1, rfl, hks.2⟩
        · intro _; exact mem_insertBody.mpr (Or.inr rfl)
      · rw [if_neg hAs]
        constructor
        · intro hmem
          have := (List.mem_filter.mp hmem).2
          simp at this
        · rintro ⟨-, hc, -⟩; exact absurd hc hAs
    · rw [if_neg hA]
      constructor
      · intro h; cases h
      · rintro ⟨-, hAs, hN⟩
        subst hAs
        exact absurd (List.mem_toFinset.mp (nullable_sub_keys A P hN)) hA
  · rw [if_neg hks]
    rw [keysList_elimEpsBase]
    by_cases hA : A ∈ keysList P
    · rw [if_pos hA]
      by_cases hAs : A = start
      · rw [if_pos hAs]
        constructor
        · intro hmem
          obtain ⟨-, hk, hN⟩ := hbase A hmem
          exact absurd ⟨hk, hN⟩ hks
        · rintro ⟨hk, -, hN⟩; exact absurd ⟨hk, hN⟩ hks
      · rw [if_neg hAs]
        constructor
        · intro hmem
          have := (List.mem_filter.mp hmem).2
          simp at this
        · rintro ⟨-, hc, -⟩; exact absurd hc hAs
    · rw [if_neg hA]
      constructor
      · intro h; cases h
      · rintro ⟨hk, hAs, hN⟩; exact absurd ⟨hk, hN⟩ hks

/-- C4.  With ε-retention on, the output of `eliminate_epsilon` has an ε body
exactly at the start symbol and exactly when the start symbol is nullable
(i.e. derives the empty string) in the input grammar; with or without
retention, no nonterminal other than the start symbol ever has an ε body. -/
theorem claim_C4 (s : Char) (P : Productions) (keep : Bool) (hwf : WFP P = true) :
    (∀ A, epsB ∈ getD (eliminate_epsilon (chStr s) P keep) A → A = chStr s) ∧
      (epsB ∈ getD (eliminate_epsilon (chStr s) P true) (chStr s) ↔
        ∃ n, DerivN P n [s] []) := by
  constructor
  · intro A hA
    exact ((eps_mem_elim_iff (chStr s) P keep A hwf).mp hA).2.1
  · rw [eps_mem_elim_iff (chStr s) P true (chStr s) hwf]
    constructor
    · rintro ⟨-, -, hN⟩
      obtain ⟨c2, hc2, n, hd⟩ := nullable_sound (chStr s) P hwf _ hN
      have hce : c2 = s := chStr_inj hc2.symm
      rw [hce] at hd
      exact ⟨n, hd⟩
    · rintro ⟨n, hd⟩
      exact ⟨rfl, rfl, nullable_complete (chStr s) P hwf n s hd⟩

/-- Witness for C4 at the concrete grammar `S -> a | ε` (with retention
disabled for the first conjunct's `keep` argument). -/
theorem claim_C4_witness :
    WFP [("S", [['a'], ['ε']])] = true ∧
      ((∀ A, epsB ∈ getD (eliminate_epsilon (chStr 'S') [("S", [['a'], ['ε']])] false) A →
          A = chStr 'S') ∧
        (epsB ∈ getD (eliminate_epsilon (chStr 'S') [("S", [['a'], ['ε']])] true) (chStr 'S') ↔
          ∃ n, DerivN [("S", [['a'], ['ε']])] n ['S'] [])) :=
  ⟨by decide, claim_C4 'S' [("S", [['a'], ['ε']])] false (by decide)⟩

/-- C10.  With `keep_start_epsilon = False`, the output of
`eliminate_epsilon` contains no ε body at all, for any nonterminal
(including the start symbol), whatever the input grammar was. -/
theorem claim_C10 (start : String) (P : Productions) (hwf : WFP P = true) :
    ∀ A, epsB ∉ getD (eliminate_epsilon start P false) A := by
  intro A hA
  have h := (eps_mem_elim_iff start P false A hwf).mp hA
  exact absurd h.1 (by simp)

/-- Witness for C10 at the concrete grammar `S -> a | ε` (whose start symbol
is nullable, so retention would have kept ε). -/
theorem claim_C10_witness :
    WFP [("S", [['a'], ['ε']])] = true ∧
      ∀ A, epsB ∉ getD (eliminate_epsilon "S" [("S", [['a'], ['ε']])] false) A :=
  ⟨by decide, claim_C10 "S" [("S", [['a'], ['ε']])] (by decide)⟩

/-! ## The unit closure of `eliminate_unit_productions` -/

/-- A single unit step: `A -> B` is a stored production whose body is the
one-character nonterminal name `B`. -/
def UnitEdge (P : Productions) (A B : String) : Prop :=
  ∃ b, b ∈ getD P A ∧ isUnitB b = true ∧ B = String.mk b

theorem mem_insertStr {l : List String} {s x : String} :
    x ∈ insertStr l s ↔ x ∈ l ∨ x = s := by
  unfold insertStr
  by_cases h : s ∈ l
  · rw [if_pos h]
    constructor
    · exact Or.inl
    · rintro (hx | hx)
      · exact hx
      · rw [hx]; exact h
  · rw [if_neg h]
    simp [List.mem_append]

theorem sublist_insertStr (l : List String) (s : String) :
    List.Sublist l (insertStr l s) := by
  unfold insertStr
  by_cases h : s ∈ l
  · rw [if_pos h]
  · rw [if_neg h]; exact List.sublist_append_left l [s]

theorem sublist_unionStr (m : List String) :
    ∀ (l : List String), List.Sublist l (unionStr l m) := by
  unfold unionStr
  induction m with
  | nil => intro l; rfl
  | cons s t ih =>
    intro l
    rw [List.foldl_cons]
    exact List.Sublist.trans (sublist_insertStr l s) (ih (insertStr l s))

theorem mem_unionStr {m l : List String} {x : String} :
    x ∈ unionStr l m ↔ x ∈ l ∨ x ∈ m := by
  unfold unionStr
  induction m generalizing l with
  | nil => simp
  | cons s t ih =>
    rw [List.foldl_cons, ih, mem_insertStr]
    constructor
    · rintro ((h | h) | h)
      · exact Or.inl h
      · exact Or.inr (by simp [h])
      · exact Or.inr (by simp [h])
    · rintro (h | h)
      · exact Or.inl (Or.inl h)
      · rcases List.mem_cons.mp h with h2 | h2
        · exact Or.inl (Or.inr h2)
        · exact Or.inr h2

theorem nodup_insertStr {l : List String} (h : l.Nodup) (s : String) :
    (insertStr l s).Nodup := by
  unfold insertStr
  by_cases hm : s ∈ l
  · rw [if_pos hm]; exact h
  · rw [if_neg hm]
    rw [List.nodup_append]
    exact ⟨h, List.nodup_singleton s, by simpa using hm⟩

theorem nodup_unionStr {m l : List String} (h : l.Nodup) : (unionStr l m).Nodup := by
  unfold unionStr
  induction m generalizing l with
  | nil => exact h
  | cons s t ih => exact ih (nodup_insertStr h s)

/-! ### `unitDirect` membership and growth -/

theorem sublist_unitDirect :
    ∀ (l : List Body) (s : List String),
      List.Sublist s (l.foldl (fun s b => if isUnitB b then insertStr s (String.mk b) else s) s) := by
  intro l
  induction l with
  | nil => intro s; rfl
  | cons b t ih =>
    intro s
    rw [List.foldl_cons]
    refine List.Sublist.trans ?_ (ih _)
    by_cases h : isUnitB b = true
    · rw [if_pos h]; exact sublist_insertStr s _
    · rw [if_neg h]

theorem mem_unitDirect_cases :
    ∀ (l : List Body) (s : List String) (x : String),
      x ∈ l.foldl (fun s b => if isUnitB b then insertStr s (String.mk b) else s) s →
      x ∈ s ∨ ∃ b ∈ l, isUnitB b = true ∧ x = String.mk b := by
  intro l
  induction l with
  | nil => intro s x hx; exact Or.inl hx
  | cons b t ih =>
    intro s x hx
    rw [List.foldl_cons] at hx
    rcases ih _ x hx with h | ⟨b2, hb2, hu, he⟩
    · by_cases hb : isUnitB b = true
      · rw [if_pos hb] at h
        rcases mem_insertStr.mp h with h2 | h2
        · exact Or.inl h2
        · exact Or.inr ⟨b, by simp, hb, h2⟩
      · rw [if_neg hb] at h
        exact Or.inl h
    · exact Or.inr ⟨b2, by simp [hb2], hu, he⟩

theorem mem_unitDirect_of :
    ∀ (l : List Body) (s : List String) (b : Body), b ∈ l → isUnitB b = true →
      String.mk b ∈ l.foldl (fun s b => if isUnitB b then insertStr s (String.mk b) else s) s := by
  intro l
  induction l with
  | nil => intro s b hb; cases hb
  | cons c t ih =>
    intro s b hb hu
    rw [List.foldl_cons]
    rcases List.mem_cons.mp hb with h | h
    · subst h
      rw [if_pos hu]
      exact (sublist_unitDirect t _).subset (mem_insertStr.mpr (Or.inr rfl))
    · exact ih _ b h hu

/-! ### `updU` and `lookupU` -/

theorem lookupU_updU_self {u : USt} {A : String} (s : List String)
    (h : A ∈ u.map (fun p => p.1)) : lookupU (updU u A s) A = s := by
  induction u with
  | nil => cases h
  | cons q t ih =>
    unfold updU
    by_cases hq : q.1 = A
    · rw [if_pos hq]
      unfold lookupU
      rw [List.find?_cons_of_pos _ (by simp)]
    · rw [if_neg hq]
      unfold lookupU
      rw [List.find?_cons_of_neg _ (by simpa using hq)]
      have h2 : A ∈ t.map (fun p => p.1) := by
        rcases List.mem_cons.mp h with h3 | h3
        · exact absurd h3.symm hq
        · exact h3
      exact ih h2

theorem lookupU_cons (q : String × List String) (t : USt) (B : String) :
    lookupU (q :: t) B = if q.1 = B then q.2 else lookupU t B := by
  by_cases h : q.1 = B
  · unfold lookupU
    rw [List.find?_cons_of_pos _ (by simpa using h)]
    simp [h]
  · unfold lookupU
    rw [List.find?_cons_of_neg _ (by simpa using h)]
    simp [h]

theorem lookupU_updU_other {u : USt} {A B : String} (s : List String) (h : B ≠ A) :
    lookupU (updU u A s) B = lookupU u B := by
  induction u with
  | nil => rfl
  | cons q t ih =>
    unfold updU
    by_cases hq : q.1 = A
    · rw [if_pos hq]
      rw [lookupU_cons, lookupU_cons]
      have hAB : ¬(A = B) := fun he => h he.symm
      rw [if_neg hAB, if_neg (fun he => hAB (by rw [← hq, he]))]
    · rw [if_neg hq]
      rw [lookupU_cons, lookupU_cons]
      by_cases h2 : q.1 = B
      · rw [if_pos h2, if_pos h2]
      · rw [if_neg h2, if_neg h2, ih]

theorem updU_keys (u : USt) (A : String) (s : List String) :
    (updU u A s).map (fun p => p.1) = u.map (fun p => p.1) := by
  induction u with
  | nil => rfl
  | cons q t ih =>
    unfold updU
    by_cases hq : q.1 = A
    · rw [if_pos hq]
      show A :: _ = q.1 :: _
      rw [hq]
    · rw [if_neg hq]
      show q.1 :: (updU t A s).map _ = q.1 :: t.map _
      rw [ih]

theorem updU_eq_self {u : USt} {A : String} {s : List String}
    (hk : A ∈ u.map (fun p => p.1)) (h : updU u A s = u) : s = lookupU u A := by
  have h2 := lookupU_updU_self s hk
  rw [h] at h2
  exact h2.symm

/-! ### Pointwise growth of the closure table -/

/-- Pointwise extension of closure tables: same keys in the same order, each
value extended (the passes only ever append to a value). -/
def UExt (u v : USt) : Prop :=
  List.Forall₂ (fun p q => p.1 = q.1 ∧ List.Sublist p.2 q.2) u v

theorem UExt_refl (u : USt) : UExt u u := by
  induction u with
  | nil => exact List.Forall₂.nil
  | cons q t ih => exact List.Forall₂.cons ⟨rfl, List.Sublist.refl _⟩ ih

theorem UExt_trans {u v w : USt} (h1 : UExt u v) (h2 : UExt v w) : UExt u w := by
  induction h1 generalizing w with
  | nil => cases h2; exact List.Forall₂.nil
  | cons hpq t ih =>
    cases h2 with
    | cons hqr t2 =>
      exact List.Forall₂.cons ⟨hpq.1.trans hqr.1, hpq.2.trans hqr.2⟩ (ih t2)

theorem UExt_keys {u v : USt} (h : UExt u v) :
    u.map (fun p => p.1) = v.map (fun p => p.1) := by
  induction h with
  | nil => rfl
  | cons hpq _ ih =>
    simp only [List.map_cons, ih, List.cons.injEq]
    exact ⟨hpq.1, trivial⟩

theorem UExt_lookup {u v : USt} (h : UExt u v) (A : String) :
    List.Sublist (lookupU u A) (lookupU v A) := by
  induction h with
  | nil => exact List.Sublist.refl _
  | @cons p q t1 t2 hpq hrest ih =>
    rw [lookupU_cons, lookupU_cons]
    by_cases hA : p.1 = A
    · rw [if_pos hA, if_pos (by rw [← hpq.1]; exact hA)]
      exact hpq.2
    · rw [if_neg hA, if_neg (fun hc => hA (by rw [hpq.1]; exact hc))]
      exact ih

theorem UExt_updU {u : USt} {A : String} {s : List String}
    (h : List.Sublist (lookupU u A) s) : UExt u (updU u A s) := by
  induction u with
  | nil => exact List.Forall₂.nil
  | cons q t ih =>
    unfold updU
    by_cases hq : q.1 = A
    · rw [if_pos hq]
      refine List.Forall₂.cons ⟨hq, ?_⟩ (UExt_refl t)
      rw [lookupU_cons, if_pos hq] at h
      exact h
    · rw [if_neg hq]
      refine List.Forall₂.cons ⟨rfl, List.Sublist.refl _⟩ ?_
      refine ih ?_
      rw [lookupU_cons, if_neg hq] at h
      exact h

theorem UExt_unitStepA (P : Productions) (u : USt) (A : String) :
    UExt u (unitStepA P u A) := by
  unfold unitStepA
  refine UExt_updU ?_
  have hgrow : ∀ (l : List String) (acc : List String),
      List.Sublist acc (l.foldl (fun acc B => unionStr acc (lookupU u B)) acc) := by
    intro l
    induction l with
    | nil => intro acc; exact List.Sublist.refl _
    | cons B t ih =>
      intro acc
      rw [List.foldl_cons]
      exact List.Sublist.trans (sublist_unionStr _ acc) (ih _)
  exact List.Sublist.trans (sublist_unitDirect (getD P A) (lookupU u A)) (hgrow _ _)

theorem UExt_unitPass (P : Productions) (nts : List String) (u : USt) :
    UExt u (unitPass P nts u) := by
  unfold unitPass
  induction nts generalizing u with
  | nil => exact UExt_refl u
  | cons A t ih =>
    rw [List.foldl_cons]
    exact UExt_trans (UExt_unitStepA P u A) (ih _)

/-! ### Measure and fixed point -/

def uMeasure (u : USt) : Nat := (u.map (fun p => p.2.length)).sum

theorem UExt_measure_le {u v : USt} (h : UExt u v) : uMeasure u ≤ uMeasure v := by
  induction h with
  | nil => exact Nat.le_refl _
  | cons hpq _ ih =>
    unfold uMeasure at *
    simp only [List.map_cons, List.sum_cons]
    exact Nat.add_le_add hpq.2.length_le ih

theorem UExt_eq_of_measure {u v : USt} (h : UExt u v) (hm : uMeasure u = uMeasure v) :
    u = v := by
  induction h with
  | nil => rfl
  | @cons p q t1 t2 hpq h2 ih =>
    have e1 : uMeasure (p :: t1) = p.2.length + uMeasure t1 := by
      unfold uMeasure; simp
    have e2 : uMeasure (q :: t2) = q.2.length + uMeasure t2 := by
      unfold uMeasure; simp
    have hm2 : p.2.length + uMeasure t1 = q.2.length + uMeasure t2 := by
      rw [← e1, ← e2]; exact hm
    have hle1 := hpq.2.length_le
    have hle2 := UExt_measure_le h2
    have hlen : p.2.length = q.2.length := by omega
    have hval : p.2 = q.2 := hpq.2.eq_of_length hlen
    have hrest : t1 = t2 := ih (by omega)
    have hp : p = q := Prod.ext hpq.1 hval
    rw [hp, hrest]

theorem foldl_step_eq_of_fix (P : Productions) :
    ∀ (l : List String) (u : USt), l.foldl (unitStepA P) u = u →
      ∀ A ∈ l, unitStepA P u A = u := by
  intro l
  induction l with
  | nil => intro u _ A hA; cases hA
  | cons B t ih =>
    intro u hfix A hA
    rw [List.foldl_cons] at hfix
    have h1 : UExt u (unitStepA P u B) := UExt_unitStepA P u B
    have h2 : UExt (unitStepA P u B) (t.foldl (unitStepA P) (unitStepA P u B)) := by
      have : ∀ (l2 : List String) (w : USt), UExt w (l2.foldl (unitStepA P) w) := by
        intro l2
        induction l2 with
        | nil => intro w; exact UExt_refl w
        | cons C t2 ih2 =>
          intro w
          rw [List.foldl_cons]
          exact UExt_trans (UExt_unitStepA P w C) (ih2 _)
      exact this t _
    have hm1 := UExt_measure_le h1
    have hm2 := UExt_measure_le h2
    rw [hfix] at hm2
    have heq1 : unitStepA P u B = u :=
      (UExt_eq_of_measure h1 (by omega)).symm
    rcases List.mem_cons.mp hA with h3 | h3
    · rw [h3]; exact heq1
    · exact ih u (by rwa [heq1] at hfix) A h3

/-! ### The closure table invariant and its fixed point -/

/-- The working set after the direct-edge loop of one nonterminal. -/
def unitS (P : Productions) (u : USt) (A : String) : List String :=
  unitDirect P A (lookupU u A)

/-- The value written back for one nonterminal: the working set together
with the currently-known closure of each of its members. -/
def unitS2 (P : Productions) (u : USt) (A : String) : List String :=
  (unitS P u A).foldl (fun acc B => unionStr acc (lookupU u B)) (unitS P u A)

theorem unitStepA_eq (P : Productions) (u : USt) (A : String) :
    unitStepA P u A = updU u A (unitS2 P u A) := rfl

theorem mem_updU_cases {u : USt} {A : String} {s : List String} {p : String × List String}
    (hp : p ∈ updU u A s) : p ∈ u ∨ p = (A, s) := by
  induction u with
  | nil => cases hp
  | cons q t ih =>
    unfold updU at hp
    by_cases hq : q.1 = A
    · rw [if_pos hq] at hp
      rcases List.mem_cons.mp hp with h | h
      · exact Or.inr h
      · exact Or.inl (List.mem_cons_of_mem _ h)
    · rw [if_neg hq] at hp
      rcases List.mem_cons.mp hp with h | h
      · exact Or.inl (by rw [h]; exact List.mem_cons_self _ _)
      · rcases ih h with h2 | h2
        · exact Or.inl (List.mem_cons_of_mem _ h2)
        · exact Or.inr h2

theorem lookupU_entry (u : USt) (A : String) :
    lookupU u A = [] ∨ ∃ p ∈ u, p.1 = A ∧ p.2 = lookupU u A := by
  unfold lookupU
  cases hf : u.find? (fun p => p.1 == A) with
  | none => exact Or.inl rfl
  | some p =>
    right
    exact ⟨p, List.mem_of_find?_eq_some hf, by simpa using List.find?_some hf, rfl⟩

theorem inner_unit_fold_sub :
    ∀ (l : List Body) (s : Finset String),
      s ⊆ l.foldl (fun s b => if isUnitB b then insert (String.mk b) s else s) s := by
  intro l
  induction l with
  | nil => intro s; exact Finset.Subset.refl s
  | cons b t ih =>
    intro s
    rw [List.foldl_cons]
    refine Finset.Subset.trans ?_ (ih _)
    by_cases h : isUnitB b = true
    · rw [if_pos h]; exact Finset.subset_insert _ s
    · rw [if_neg h]

theorem outer_unit_fold_sub :
    ∀ (L : Productions) (s : Finset String),
      s ⊆ L.foldl (fun s p => p.2.foldl
        (fun s b => if isUnitB b then insert (String.mk b) s else s) s) s := by
  intro L
  induction L with
  | nil => intro s; exact Finset.Subset.refl s
  | cons q t ih =>
    intro s
    rw [List.foldl_cons]
    exact Finset.Subset.trans (inner_unit_fold_sub q.2 s) (ih _)

theorem mem_inner_unit_fold {b : Body} :
    ∀ (l : List Body) (s : Finset String), b ∈ l → isUnitB b = true →
      String.mk b ∈ l.foldl (fun s b => if isUnitB b then insert (String.mk b) s else s) s := by
  intro l
  induction l with
  | nil => intro s hb; cases hb
  | cons c t ih =>
    intro s hb hu
    rw [List.foldl_cons]
    rcases List.mem_cons.mp hb with h | h
    · subst h
      rw [if_pos hu]
      exact inner_unit_fold_sub t _ (Finset.mem_insert_self _ _)
    · exact ih _ h hu

theorem mem_unitUniv_of_unit {P : Productions} {A : String} {b : Body}
    (hb : b ∈ getD P A) (hu : isUnitB b = true) : String.mk b ∈ unitUniv P := by
  have hgen : ∀ (L : Productions) (s : Finset String) (p : String × List Body), p ∈ L →
      b ∈ p.2 →
      String.mk b ∈ L.foldl (fun s p => p.2.foldl
        (fun s b => if isUnitB b then insert (String.mk b) s else s) s) s := by
    intro L
    induction L with
    | nil => intro s p hp; cases hp
    | cons q t ih =>
      intro s p hp hbp
      rw [List.foldl_cons]
      rcases List.mem_cons.mp hp with h | h
      · subst h
        exact outer_unit_fold_sub t _ (mem_inner_unit_fold p.2 s hbp hu)
      · exact ih _ p h hbp
  rcases getD_entry P A with h0 | hmem
  · rw [h0] at hb; cases hb
  · unfold unitUniv
    exact Finset.mem_union_right _ (hgen P ∅ _ hmem hb)

theorem keys_mem_unitUniv {P : Productions} {A : String} (hA : A ∈ keysList P) :
    A ∈ unitUniv P := by
  unfold unitUniv
  exact Finset.mem_union_left _ (List.mem_toFinset.mpr hA)

theorem unionFold_cases (u : USt) :
    ∀ (l : List String) (acc : List String) (x : String),
      x ∈ l.foldl (fun acc B => unionStr acc (lookupU u B)) acc →
      x ∈ acc ∨ ∃ B ∈ l, x ∈ lookupU u B := by
  intro l
  induction l with
  | nil => intro acc x hx; exact Or.inl hx
  | cons B t ih =>
    intro acc x hx
    rw [List.foldl_cons] at hx
    rcases ih _ x hx with h | ⟨C, hC, hx2⟩
    · rcases mem_unionStr.mp h with h2 | h2
      · exact Or.inl h2
      · exact Or.inr ⟨B, by simp, h2⟩
    · exact Or.inr ⟨C, by simp [hC], hx2⟩

theorem unionFold_mem_of (u : USt) :
    ∀ (l : List String) (acc : List String) (B : String), B ∈ l →
      ∀ x ∈ lookupU u B, x ∈ l.foldl (fun acc C => unionStr acc (lookupU u C)) acc := by
  intro l
  induction l with
  | nil => intro acc B hB; cases hB
  | cons C t ih =>
    intro acc B hB x hx
    rw [List.foldl_cons]
    rcases List.mem_cons.mp hB with h | h
    · subst h
      have h1 : x ∈ unionStr acc (lookupU u B) := mem_unionStr.mpr (Or.inr hx)
      have hgrow : ∀ (l2 : List String) (a : List String),
          List.Sublist a (l2.foldl (fun acc C => unionStr acc (lookupU u C)) a) := by
        intro l2
        induction l2 with
        | nil => intro a; exact List.Sublist.refl _
        | cons D t2 ih2 =>
          intro a
          rw [List.foldl_cons]
          exact List.Sublist.trans (sublist_unionStr _ a) (ih2 _)
      exact (hgrow t _).subset h1
    · exact ih _ B h x hx

/-- The invariant of the closure table: the keys are exactly the
nonterminal list, and every value is a duplicate-free subset of the finite
name universe. -/
def UInv (P : Productions) (u : USt) : Prop :=
  u.map (fun p => p.1) = keysList P ∧
    ∀ p ∈ u, p.2.Nodup ∧ ∀ x ∈ p.2, x ∈ unitUniv P

theorem UInv_lookup {P : Productions} {u : USt} (h : UInv P u) (A : String) :
    (lookupU u A).Nodup ∧ ∀ x ∈ lookupU u A, x ∈ unitUniv P := by
  rcases lookupU_entry u A with h0 | ⟨p, hp, -, hval⟩
  · rw [h0]; exact ⟨List.nodup_nil, fun x hx => absurd hx (List.not_mem_nil x)⟩
  · rw [← hval]; exact h.2 p hp

theorem UInv_unitStepA {P : Productions} {u : USt} (h : UInv P u) (A : String) :
    UInv P (unitStepA P u A) := by
  rw [unitStepA_eq]
  constructor
  · rw [updU_keys]; exact h.1
  · intro p hp
    rcases mem_updU_cases hp with h2 | h2
    · exact h.2 p h2
    · rw [h2]
      obtain ⟨hlnd, hlu⟩ := UInv_lookup h A
      have hSnd : (unitS P u A).Nodup ∧ ∀ x ∈ unitS P u A, x ∈ unitUniv P := by
        unfold unitS unitDirect
        constructor
        · -- nodup through the direct fold
          have hgen : ∀ (l : List Body) (s : List String), s.Nodup →
              (l.foldl (fun s b => if isUnitB b then insertStr s (String.mk b) else s) s).Nodup := by
            intro l
            induction l with
            | nil => intro s hs; exact hs
            | cons b t ih =>
              intro s hs
              rw [List.foldl_cons]
              refine ih _ ?_
              by_cases hb : isUnitB b = true
              · rw [if_pos hb]; exact nodup_insertStr hs _
              · rw [if_neg hb]; exact hs
          exact hgen _ _ hlnd
        · intro x hx
          rcases mem_unitDirect_cases (getD P A) (lookupU u A) x hx with h3 | ⟨b, hb, hub, he⟩
          · exact hlu x h3
          · rw [he]; exact mem_unitUniv_of_unit hb hub
      constructor
      · -- S2 is nodup: the union fold preserves nodup
        unfold unitS2
        have hgen : ∀ (l : List String) (a : List String), a.Nodup →
            (l.foldl (fun acc B => unionStr acc (lookupU u B)) a).Nodup := by
          intro l
          induction l with
          | nil => intro a ha; exact ha
          | cons B t ih =>
            intro a ha
            rw [List.foldl_cons]
            exact ih _ (nodup_unionStr ha)
        exact hgen _ _ hSnd.1
      · intro x hx
        unfold unitS2 at hx
        rcases unionFold_cases u _ _ x hx with h3 | ⟨B, -, h4⟩
        · exact hSnd.2 x h3
        · exact (UInv_lookup h B).2 x h4

theorem UInv_unitPass {P : Productions} (nts : List String) {u : USt} (h : UInv P u) :
    UInv P (unitPass P nts u) := by
  unfold unitPass
  refine foldl_induction _ (UInv P) nts u h ?_
  intro s A _ hs
  exact UInv_unitStepA hs A

theorem uMeasure_le_bound : ∀ (u : USt) (C : Nat), (∀ p ∈ u, p.2.length ≤ C) →
    uMeasure u ≤ u.length * C := by
  intro u C
  induction u with
  | nil => intro _; simp [uMeasure]
  | cons q t ih =>
    intro h
    have e1 : uMeasure (q :: t) = q.2.length + uMeasure t := by unfold uMeasure; simp
    have h1 := h q (by simp)
    have h2 := ih (fun p hp => h p (by simp [hp]))
    have e2 : (q :: t).length * C = t.length * C + C := by
      rw [List.length_cons, Nat.succ_mul]
    omega

theorem UInv_measure {P : Productions} {u : USt} (h : UInv P u) :
    uMeasure u ≤ (keysList P).length * (unitUniv P).card := by
  have hlen : u.length = (keysList P).length := by
    rw [← h.1, List.length_map]
  rw [← hlen]
  refine uMeasure_le_bound u _ ?_
  intro p hp
  obtain ⟨hnd, hsub⟩ := h.2 p hp
  rw [← List.toFinset_card_of_nodup hnd]
  exact Finset.card_le_card (fun x hx => hsub x (List.mem_toFinset.mp hx))

theorem unit_init_inv (P : Productions) :
    UInv P ((keysList P).map (fun A => (A, [A]))) := by
  constructor
  · have h : ((fun p => p.1) ∘ fun A => (A, ([A] : List String))) = fun A => A := rfl
    rw [List.map_map, h]
    exact List.map_id (keysList P)
  · intro p hp
    obtain ⟨A, hA, he⟩ := List.mem_map.mp hp
    rw [← he]
    exact ⟨List.nodup_singleton A, fun x hx => by
      rcases List.mem_singleton.mp hx with h
      rw [h]; exact keys_mem_unitUniv hA⟩

theorem rtg_stuck {P : Productions} {C B : String} (h : Relation.ReflTransGen (UnitEdge P) C B)
    (hC : getD P C = []) : C = B := by
  rcases Relation.ReflTransGen.cases_head h with h2 | ⟨D, hCD, -⟩
  · exact h2
  · obtain ⟨b, hb, -, -⟩ := hCD
    rw [hC] at hb
    exact absurd hb (List.not_mem_nil b)

/-! ### The `while changed:` loop stops after at most two passes

The flag is set only when a direct unit edge is added, and every direct
edge is added in the first pass; the lemmas below show the second pass
never sets the flag, so the loop's fuel is immaterial (any fuel of the
form `k + 2` returns the same table). -/

theorem sublist_unionFold (u : USt) :
    ∀ (l : List String) (a : List String),
      List.Sublist a (l.foldl (fun acc B => unionStr acc (lookupU u B)) a) := by
  intro l
  induction l with
  | nil => intro a; exact List.Sublist.refl _
  | cons B t ih =>
    intro a
    rw [List.foldl_cons]
    exact List.Sublist.trans (sublist_unionStr _ a) (ih _)

theorem unitDirectC_fst (P : Productions) (A : String) :
    ∀ (sc : List String × Bool), (unitDirectC P A sc).1 = unitDirect P A sc.1 := by
  unfold unitDirectC unitDirect
  generalize getD P A = l
  induction l with
  | nil => intro sc; rfl
  | cons b t ih =>
    intro sc
    simp only [List.foldl_cons]
    have he : (if isUnitB b && !(decide (String.mk b ∈ sc.1))
        then ((sc.1 ++ [String.mk b], true) : List String × Bool) else sc) =
        ((if isUnitB b then insertStr sc.1 (String.mk b) else sc.1),
          (if isUnitB b && !(decide (String.mk b ∈ sc.1)) then true else sc.2)) := by
      by_cases hu : isUnitB b = true
      · by_cases hm : String.mk b ∈ sc.1
        · simp [hu, hm, insertStr]
        · simp [hu, hm, insertStr]
      · have hu2 : isUnitB b = false := by simpa using hu
        simp [hu2]
    rw [he]
    exact ih _

theorem unitStepC_fst (P : Productions) (uc : USt × Bool) (A : String) :
    (unitStepC P uc A).1 = unitStepA P uc.1 A := by
  show updU uc.1 A
      ((unitDirectC P A (lookupU uc.1 A, uc.2)).1.foldl
        (fun acc B => unionStr acc (lookupU uc.1 B))
        (unitDirectC P A (lookupU uc.1 A, uc.2)).1) =
    unitStepA P uc.1 A
  rw [unitDirectC_fst]
  rfl

theorem UExt_foldC (P : Productions) :
    ∀ (l : List String) (uc : USt × Bool), UExt uc.1 (l.foldl (unitStepC P) uc).1 := by
  intro l
  induction l with
  | nil => intro uc; exact UExt_refl _
  | cons A t ih =>
    intro uc
    rw [List.foldl_cons]
    refine UExt_trans ?_ (ih (unitStepC P uc A))
    rw [unitStepC_fst]
    exact UExt_unitStepA P uc.1 A

theorem unitDirectC_id (P : Productions) (A : String) :
    ∀ (sc : List String × Bool),
      (∀ b ∈ getD P A, isUnitB b = true → String.mk b ∈ sc.1) →
      unitDirectC P A sc = sc := by
  unfold unitDirectC
  generalize getD P A = l
  induction l with
  | nil => intro sc _; rfl
  | cons b t ih =>
    intro sc h
    simp only [List.foldl_cons]
    have he : (if isUnitB b && !(decide (String.mk b ∈ sc.1))
        then ((sc.1 ++ [String.mk b], true) : List String × Bool) else sc) = sc := by
      by_cases hu : isUnitB b = true
      · have hm := h b (by simp) hu
        simp [hu, hm]
      · have hu2 : isUnitB b = false := by simpa using hu
        simp [hu2]
    rw [he]
    exact ih sc (fun b2 hb2 hu2 => h b2 (by simp [hb2]) hu2)

theorem pass_direct_complete (P : Productions) :
    ∀ (nts : List String) (uc : USt × Bool),
      (∀ A ∈ nts, A ∈ uc.1.map (fun p => p.1)) →
      ∀ A ∈ nts, ∀ b ∈ getD P A, isUnitB b = true →
        String.mk b ∈ lookupU (nts.foldl (unitStepC P) uc).1 A := by
  intro nts
  induction nts with
  | nil => intro uc _ A hA; cases hA
  | cons A0 t ih =>
    intro uc hkeys A hA b hb hu
    rw [List.foldl_cons]
    have hkeq : (unitStepC P uc A0).1.map (fun p => p.1) = uc.1.map (fun p => p.1) := by
      rw [unitStepC_fst]
      exact (UExt_keys (UExt_unitStepA P uc.1 A0)).symm
    by_cases hAt : A ∈ t
    · refine ih (unitStepC P uc A0) ?_ A hAt b hb hu
      intro X hX
      rw [hkeq]
      exact hkeys X (by simp [hX])
    · have hAA0 : A = A0 := by
        rcases List.mem_cons.mp hA with h | h
        · exact h
        · exact absurd h hAt
      subst hAA0
      have hmem1 : String.mk b ∈ lookupU (unitStepC P uc A).1 A := by
        have h1 : lookupU (unitStepC P uc A).1 A = unitS2 P uc.1 A := by
          rw [unitStepC_fst, unitStepA_eq]
          exact lookupU_updU_self _ (hkeys A (by simp))
        rw [h1]
        unfold unitS2
        refine (sublist_unionFold uc.1 _ _).subset ?_
        unfold unitS
        exact mem_unitDirect_of (getD P A) _ b hb hu
      exact (UExt_lookup (UExt_foldC P t (unitStepC P uc A)) A).subset hmem1

theorem pass_no_change (P : Productions) :
    ∀ (nts : List String) (uc : USt × Bool), uc.2 = false →
      (∀ A ∈ nts, ∀ b ∈ getD P A, isUnitB b = true → String.mk b ∈ lookupU uc.1 A) →
      (nts.foldl (unitStepC P) uc).2 = false := by
  intro nts
  induction nts with
  | nil => intro uc hf _; exact hf
  | cons A0 t ih =>
    intro uc hf hcomp
    rw [List.foldl_cons]
    have hid : unitDirectC P A0 (lookupU uc.1 A0, uc.2) = (lookupU uc.1 A0, uc.2) :=
      unitDirectC_id P A0 _ (fun b hb hu => hcomp A0 (by simp) b hb hu)
    refine ih (unitStepC P uc A0) ?_ ?_
    · show (unitStepC P uc A0).2 = false
      have h2 : (unitStepC P uc A0).2 = (unitDirectC P A0 (lookupU uc.1 A0, uc.2)).2 := rfl
      rw [h2, hid]
      exact hf
    · intro A hA b hb hu
      have hext : UExt uc.1 (unitStepC P uc A0).1 := by
        rw [unitStepC_fst]
        exact UExt_unitStepA P uc.1 A0
      exact (UExt_lookup hext A).subset (hcomp A (by simp [hA]) b hb hu)

theorem unitLoop_succ (P : Productions) (nts : List String) (fuel : Nat) (u : USt) :
    unitLoop P nts (fuel + 1) u =
      if (unitPassC P nts u).2 then unitLoop P nts fuel (unitPassC P nts u).1
      else (unitPassC P nts u).1 := rfl

theorem unitLoop_of_no_change (P : Productions) (nts : List String) (u : USt) (fuel : Nat)
    (hc : ∀ A ∈ nts, ∀ b ∈ getD P A, isUnitB b = true → String.mk b ∈ lookupU u A) :
    unitLoop P nts (fuel + 1) u = (unitPassC P nts u).1 := by
  have h2 : (unitPassC P nts u).2 = false :=
    pass_no_change P nts (u, false) rfl hc
  rw [unitLoop_succ, h2]
  rfl

theorem unitLoop_two_passes (P : Productions) (nts : List String) (u : USt) (fuel : Nat)
    (hk : ∀ A ∈ nts, A ∈ u.map (fun p => p.1)) :
    unitLoop P nts (fuel + 2) u = unitLoop P nts 2 u := by
  have hc1 : ∀ A ∈ nts, ∀ b ∈ getD P A, isUnitB b = true →
      String.mk b ∈ lookupU (unitPassC P nts u).1 A :=
    fun A hA b hb hu => pass_direct_complete P nts (u, false) hk A hA b hb hu
  have e1 : unitLoop P nts (fuel + 2) u =
      if (unitPassC P nts u).2 then unitLoop P nts (fuel + 1) (unitPassC P nts u).1
      else (unitPassC P nts u).1 := rfl
  have e2 : unitLoop P nts 2 u =
      if (unitPassC P nts u).2 then unitLoop P nts (0 + 1) (unitPassC P nts u).1
      else (unitPassC P nts u).1 := rfl
  rw [e1, e2]
  by_cases h : (unitPassC P nts u).2 = true
  · rw [if_pos h, if_pos h,
      unitLoop_of_no_change P nts _ fuel hc1, unitLoop_of_no_change P nts _ 0 hc1]
  · rw [if_neg h, if_neg h]

theorem unitTable_eq_two_passes (P : Productions) (nts : List String) :
    unitTable P nts = unitLoop P nts 2 (nts.map (fun A => (A, [A]))) := by
  unfold unitTable
  refine unitLoop_two_passes P nts _ _ ?_
  intro A hA
  have hc : ((fun p : String × List String => p.1) ∘ fun A => (A, ([A] : List String))) =
      fun A => A := rfl
  rw [List.map_map, hc]
  simpa using hA

/-! ### The output of `eliminate_unit_productions` -/

theorem getD_map_keys (g : String → List Body) :
    ∀ (nts : List String) (A : String), A ∈ nts →
      getD (nts.map (fun B => (B, g B))) A = g A := by
  intro nts
  induction nts with
  | nil => intro A hA; cases hA
  | cons B t ih =>
    intro A hA
    rw [List.map_cons, getD_cons]
    by_cases h : B = A
    · rw [if_pos h, h]
    · rw [if_neg h]
      refine ih A ?_
      rcases List.mem_cons.mp hA with h2 | h2
      · exact absurd h2.symm h
      · exact h2

theorem mem_nonunit_fold :
    ∀ (l : List Body) (acc : List Body) (x : Body),
      x ∈ l.foldl (fun acc b => if isUnitB b then acc else insertBody acc b) acc ↔
        x ∈ acc ∨ (x ∈ l ∧ isUnitB x = false) := by
  intro l
  induction l with
  | nil => intro acc x; simp
  | cons b t ih =>
    intro acc x
    rw [List.foldl_cons, ih]
    by_cases hb : isUnitB b = true
    · rw [if_pos hb]
      constructor
      · rintro (h | h)
        · exact Or.inl h
        · exact Or.inr ⟨by simp [h.1], h.2⟩
      · rintro (h | ⟨h1, h2⟩)
        · exact Or.inl h
        · rcases List.mem_cons.mp h1 with h3 | h3
          · rw [h3, hb] at h2; cases h2
          · exact Or.inr ⟨h3, h2⟩
    · rw [if_neg hb]
      have hbf : isUnitB b = false := by simpa using hb
      constructor
      · rintro (h | h)
        · rcases mem_insertBody.mp h with h2 | h2
          · exact Or.inl h2
          · exact Or.inr ⟨by simp [h2], by rw [h2]; exact hbf⟩
        · exact Or.inr ⟨by simp [h.1], h.2⟩
      · rintro (h | ⟨h1, h2⟩)
        · exact Or.inl (mem_insertBody.mpr (Or.inl h))
        · rcases List.mem_cons.mp h1 with h3 | h3
          · exact Or.inl (mem_insertBody.mpr (Or.inr h3))
          · exact Or.inr ⟨h3, h2⟩

theorem mem_build_iff (P : Productions) :
    ∀ (l : List String) (acc : List Body) (x : Body),
      x ∈ l.foldl (fun acc B =>
          (getD P B).foldl (fun acc b => if isUnitB b then acc else insertBody acc b) acc) acc ↔
        x ∈ acc ∨ ∃ B ∈ l, x ∈ getD P B ∧ isUnitB x = false := by
  intro l
  induction l with
  | nil => intro acc x; simp
  | cons B t ih =>
    intro acc x
    rw [List.foldl_cons, ih, mem_nonunit_fold]
    constructor
    · rintro ((h | h) | ⟨C, hC, h2⟩)
      · exact Or.inl h
      · exact Or.inr ⟨B, by simp, h.1, h.2⟩
      · exact Or.inr ⟨C, by simp [hC], h2⟩
    · rintro (h | ⟨C, hC, h2⟩)
      · exact Or.inl (Or.inl h)
      · rcases List.mem_cons.mp hC with h3 | h3
        · rw [h3] at h2
          exact Or.inl (Or.inr ⟨h2.1, h2.2⟩)
        · exact Or.inr ⟨C, h3, h2⟩

theorem getD_elimUnit (st : String) (P : Productions) (A : String) (hA : A ∈ keysList P) :
    getD (eliminate_unit_productions st P) A =
      (lookupU (unitTable P (keysList P)) A).foldl (fun acc B =>
        (getD P B).foldl (fun acc b => if isUnitB b then acc else insertBody acc b) acc) [] :=
  getD_map_keys (fun A => (lookupU (unitTable P (keysList P)) A).foldl (fun acc B =>
    (getD P B).foldl (fun acc b => if isUnitB b then acc else insertBody acc b) acc) [])
    (keysList P) A hA

set_option maxHeartbeats 2000000 in
set_option maxRecDepth 10000 in
/-- C2: refuted.  On the chain grammar A → B, B → C, C → D, D → d (keys in
file order) the nonterminal D is reachable from A by a chain of unit
productions and d is a non-unit body of D, so the claimed closure union for
A contains the body d; but the source's `while changed:` loop sets
`changed` only when a direct unit edge is added — never on the
transitive-union step — so it stops after two passes with
unit[A] = {A, B, C}, and the body set returned for A is empty.  (The result
is also order-dependent: with the keys reversed the closure of A would be
complete.) -/
theorem claim_C2 :
    Relation.ReflTransGen
      (UnitEdge [("A", [['B']]), ("B", [['C']]), ("C", [['D']]), ("D", [['d']])]) "A" "D" ∧
    (['d'] : Body) ∈ getD [("A", [['B']]), ("B", [['C']]), ("C", [['D']]), ("D", [['d']])] "D" ∧
    isUnitB ['d'] = false ∧
    getD (eliminate_unit_productions "A"
      [("A", [['B']]), ("B", [['C']]), ("C", [['D']]), ("D", [['d']])]) "A" = [] := by
  refine ⟨?_, by decide, by decide, by decide⟩
  have h1 : UnitEdge [("A", [['B']]), ("B", [['C']]), ("C", [['D']]), ("D", [['d']])] "A" "B" :=
    ⟨['B'], by decide, by decide, by decide⟩
  have h2 : UnitEdge [("A", [['B']]), ("B", [['C']]), ("C", [['D']]), ("D", [['d']])] "B" "C" :=
    ⟨['C'], by decide, by decide, by decide⟩
  have h3 : UnitEdge [("A", [['B']]), ("B", [['C']]), ("C", [['D']]), ("D", [['d']])] "C" "D" :=
    ⟨['D'], by decide, by decide, by decide⟩
  exact Relation.ReflTransGen.head h1
    (Relation.ReflTransGen.head h2 (Relation.ReflTransGen.single h3))

/-! ## Freshness of minted variable names -/

theorem natDigits_lt_ten : ∀ (fuel n : Nat), ∀ d ∈ natDigits fuel n, d < 10 := by
  intro fuel
  induction fuel with
  | zero => intro n d hd; cases hd
  | succ k ih =>
    intro n d hd
    unfold natDigits at hd
    by_cases h : n < 10
    · rw [if_pos h] at hd
      rw [List.mem_singleton.mp hd]
      exact h
    · rw [if_neg h] at hd
      rcases List.mem_append.mp hd with h2 | h2
      · exact ih _ d h2
      · rw [List.mem_singleton.mp h2]
        exact Nat.mod_lt n (by omega)

def digitsVal (l : List Nat) : Nat := l.foldl (fun a d => 10 * a + d) 0

theorem digitsVal_append_single (l : List Nat) (d : Nat) :
    digitsVal (l ++ [d]) = 10 * digitsVal l + d := by
  unfold digitsVal
  rw [List.foldl_append]
  rfl

theorem digitsVal_natDigits : ∀ (fuel n : Nat), n < fuel →
    digitsVal (natDigits fuel n) = n := by
  intro fuel
  induction fuel with
  | zero => intro n h; omega
  | succ k ih =>
    intro n h
    unfold natDigits
    by_cases h10 : n < 10
    · rw [if_pos h10]
      unfold digitsVal
      simp
    · rw [if_neg h10]
      rw [digitsVal_append_single]
      have hdiv : n / 10 < k := by
        have h1 : n / 10 < n := Nat.div_lt_self (by omega) (by omega)
        omega
      rw [ih (n / 10) hdiv]
      omega

theorem digitChar_inj : ∀ d < 10, ∀ e < 10, digitChar d = digitChar e → d = e := by decide

theorem map_digitChar_inj : ∀ (l1 l2 : List Nat), (∀ d ∈ l1, d < 10) → (∀ d ∈ l2, d < 10) →
    l1.map digitChar = l2.map digitChar → l1 = l2 := by
  intro l1
  induction l1 with
  | nil =>
    intro l2 _ _ h
    cases l2 with
    | nil => rfl
    | cons e t2 => simp at h
  | cons d t ih =>
    intro l2 h1 h2 h
    cases l2 with
    | nil => simp at h
    | cons e t2 =>
      simp only [List.map_cons, List.cons.injEq] at h
      have hd := digitChar_inj d (h1 d (by simp)) e (h2 e (by simp)) h.1
      rw [hd, ih t2 (fun x hx => h1 x (by simp [hx])) (fun x hx => h2 x (by simp [hx])) h.2]

theorem natStr_inj {m n : Nat} (h : natStr m = natStr n) : m = n := by
  unfold natStr at h
  have h2 : (natDigits (m + 1) m).map digitChar = (natDigits (n + 1) n).map digitChar := by
    have h3 := congrArg String.data h
    simpa using h3
  have h3 := map_digitChar_inj _ _ (natDigits_lt_ten _ m) (natDigits_lt_ten _ n) h2
  have e1 := digitsVal_natDigits (m + 1) m (by omega)
  have e2 := digitsVal_natDigits (n + 1) n (by omega)
  rw [← e1, ← e2, h3]

theorem string_append_inj {base s t : String} (h : base ++ s = base ++ t) : s = t := by
  have h2 := congrArg String.data h
  rw [String.data_append, String.data_append] at h2
  exact String.ext (List.append_cancel_left h2)

theorem freshFrom_spec (used : Finset String) (base : String) :
    ∀ (fuel i : Nat),
      freshFrom used base fuel i ∉ used ∨
        ∀ j, i ≤ j → j < i + fuel → (base ++ natStr j) ∈ used := by
  intro fuel
  induction fuel with
  | zero =>
    intro i
    right
    intro j h1 h2
    omega
  | succ k ih =>
    intro i
    unfold freshFrom
    by_cases h : (base ++ natStr i) ∈ used
    · rw [if_pos h]
      rcases ih (i + 1) with h2 | h2
      · exact Or.inl h2
      · right
        intro j hj1 hj2
        by_cases hji : j = i
        · rw [hji]; exact h
        · exact h2 j (by omega) (by omega)
    · rw [if_neg h]
      exact Or.inl h

theorem fresh_var_not_mem (used : Finset String) (base : String) :
    (fresh_var used base).1 ∉ used := by
  unfold fresh_var
  rcases freshFrom_spec used base (used.card + 1) 1 with h | h
  · exact h
  · exfalso
    have hmaps : ∀ j ∈ Finset.Ico 1 (1 + (used.card + 1)), base ++ natStr j ∈ used := by
      intro j hj
      obtain ⟨h1, h2⟩ := Finset.mem_Ico.mp hj
      exact h j h1 (by omega)
    have hinj : Set.InjOn (fun j => base ++ natStr j)
        (Finset.Ico 1 (1 + (used.card + 1))) := by
      intro a _ b _ he
      exact natStr_inj (string_append_inj he)
    have hcard := Finset.card_le_card_of_injOn _ hmaps hinj
    rw [Nat.card_Ico] at hcard
    omega

theorem fresh_var_used (used : Finset String) (base : String) :
    used ⊆ (fresh_var used base).2 := by
  unfold fresh_var
  exact Finset.subset_insert _ used

/-! ## The generating and reachable fixed points -/

theorem foldIns_mono {α : Type _} (cond : Finset String → α → Bool) (key : α → String)
    (hmono : ∀ (s t : Finset String) (x : α), s ⊆ t → cond s x = true → cond t x = true) :
    ∀ (l : List α) (s t : Finset String), s ⊆ t →
      foldIns cond key l s ⊆ foldIns cond key l t := by
  intro l
  induction l with
  | nil => intro s t h; exact h
  | cons a x ih =>
    intro s t h
    refine ih _ _ ?_
    show (if cond s a = true then insert (key a) s else s) ⊆
      (if cond t a = true then insert (key a) t else t)
    by_cases hs : cond s a = true
    · rw [if_pos hs, if_pos (hmono s t a h hs)]
      exact Finset.insert_subset_insert _ h
    · rw [if_neg hs]
      by_cases ht : cond t a = true
      · rw [if_pos ht]
        exact h.trans (Finset.subset_insert _ t)
      · rw [if_neg ht]
        exact h

theorem genBodyOk_mono {s t : Finset String} (h : s ⊆ t) {b : Body}
    (hb : genBodyOk s b = true) : genBodyOk t b = true := by
  unfold genBodyOk at *
  rw [List.all_eq_true] at *
  intro c hc
  have h2 := hb c hc
  rw [Bool.or_eq_true] at *
  rcases h2 with h3 | h3
  · exact Or.inl h3
  · exact Or.inr (decide_eq_true (h (of_decide_eq_true h3)))

theorem genCond_mono (s t : Finset String) (p : String × List Body) (h : s ⊆ t)
    (hc : p.2.any (genBodyOk s) = true) : p.2.any (genBodyOk t) = true := by
  rw [List.any_eq_true] at *
  obtain ⟨b, hb, h2⟩ := hc
  exact ⟨b, hb, genBodyOk_mono h h2⟩

theorem genPass_inv (P : Productions) (s : Finset String)
    (hs : s ⊆ (keysList P).toFinset) : genPass P s ⊆ (keysList P).toFinset :=
  foldIns_subset _ _ P s _ hs (fun p hp => keys_mem_toFinset hp)

theorem gen_isFix (P : Productions) :
    genPass P (generating_nonterminals P) = generating_nonterminals P := by
  unfold generating_nonterminals
  refine iterFix_fix (genPass P) (fun s => s ⊆ (keysList P).toFinset) Finset.card
      ((keysList P).toFinset.card) ?_ ?_ ?_ _ _ ?_ ?_
  · intro s hs; exact genPass_inv P s hs
  · intro s _ hne
    exact Finset.card_lt_card (Finset.ssubset_iff_subset_ne.mpr
      ⟨subset_foldIns _ _ _ _, fun h => hne h.symm⟩)
  · intro s hs; exact Finset.card_le_card hs
  · exact Finset.empty_subset _
  · omega

theorem gen_closed (P : Productions) {p : String × List Body}
    (hp : p ∈ P) (hb : p.2.any (genBodyOk (generating_nonterminals P)) = true) :
    p.1 ∈ generating_nonterminals P :=
  foldIns_fix_mem _ _ P _ (gen_isFix P) p hp hb

theorem gen_sub_keys (P : Productions) :
    generating_nonterminals P ⊆ (keysList P).toFinset := by
  unfold generating_nonterminals
  refine iterFix_inv _ (fun s => s ⊆ (keysList P).toFinset) ?_ _ _ (Finset.empty_subset _)
  exact fun s hs => genPass_inv P s hs

/-! ### `ntNames` and the reachability pass -/

theorem mem_ntNames_iff {b : Body} {x : String} :
    x ∈ ntNames b ↔ ∃ c ∈ b, is_nonterminal c = true ∧ x = chStr c := by
  unfold ntNames
  have hgen : ∀ (l : List Char) (s : Finset String) (x : String),
      x ∈ l.foldl (fun s c => if is_nonterminal c then insert (chStr c) s else s) s ↔
        x ∈ s ∨ ∃ c ∈ l, is_nonterminal c = true ∧ x = chStr c := by
    intro l
    induction l with
    | nil => intro s x; simp
    | cons c t ih =>
      intro s x
      rw [List.foldl_cons, ih]
      by_cases hc : is_nonterminal c = true
      · rw [if_pos hc]
        constructor
        · rintro (h | h)
          · rcases Finset.mem_insert.mp h with h2 | h2
            · exact Or.inr ⟨c, by simp, hc, h2⟩
            · exact Or.inl h2
          · obtain ⟨d, hd, h2⟩ := h
            exact Or.inr ⟨d, by simp [hd], h2⟩
        · rintro (h | ⟨d, hd, h2, h3⟩)
          · exact Or.inl (Finset.mem_insert_of_mem h)
          · rcases List.mem_cons.mp hd with h4 | h4
            · rw [h4] at h3
              exact Or.inl (by rw [h3]; exact Finset.mem_insert_self _ _)
            · exact Or.inr ⟨d, h4, h2, h3⟩
      · rw [if_neg hc]
        constructor
        · rintro (h | ⟨d, hd, h2⟩)
          · exact Or.inl h
          · exact Or.inr ⟨d, by simp [hd], h2⟩
        · rintro (h | ⟨d, hd, h2, h3⟩)
          · exact Or.inl h
          · rcases List.mem_cons.mp hd with h4 | h4
            · rw [h4] at h2; exact absurd h2 hc
            · exact Or.inr ⟨d, h4, h2, h3⟩
  rw [hgen]
  simp

theorem bodyNts_fold_cases :
    ∀ (l : List Body) (s : Finset String) (x : String),
      x ∈ l.foldl (fun s b => s ∪ ntNames b) s → x ∈ s ∨ ∃ b ∈ l, x ∈ ntNames b := by
  intro l
  induction l with
  | nil => intro s x hx; exact Or.inl hx
  | cons b t ih =>
    intro s x hx
    rw [List.foldl_cons] at hx
    rcases ih _ x hx with h | ⟨b2, hb2, h2⟩
    · rcases Finset.mem_union.mp h with h2 | h2
      · exact Or.inl h2
      · exact Or.inr ⟨b, by simp, h2⟩
    · exact Or.inr ⟨b2, by simp [hb2], h2⟩

theorem bodyNts_fold_of :
    ∀ (l : List Body) (s : Finset String) (b : Body), b ∈ l →
      ∀ x ∈ ntNames b, x ∈ l.foldl (fun s b => s ∪ ntNames b) s := by
  intro l
  induction l with
  | nil => intro s b hb; cases hb
  | cons c t ih =>
    intro s b hb x hx
    rw [List.foldl_cons]
    rcases List.mem_cons.mp hb with h | h
    · subst h
      have h1 : x ∈ s ∪ ntNames b := Finset.mem_union_right _ hx
      have hgrow : ∀ (l2 : List Body) (a : Finset String),
          a ⊆ l2.foldl (fun s b => s ∪ ntNames b) a := by
        intro l2
        induction l2 with
        | nil => intro a; exact Finset.Subset.refl a
        | cons d t2 ih2 =>
          intro a
          rw [List.foldl_cons]
          exact Finset.Subset.trans Finset.subset_union_left (ih2 _)
      exact hgrow t _ h1
    · exact ih _ b h x hx

theorem subset_reachPass (P : Productions) (r : Finset String) : r ⊆ reachPass P r :=
  Finset.subset_union_left

theorem reachPass_mono (P : Productions) {r t : Finset String} (h : r ⊆ t) :
    reachPass P r ⊆ reachPass P t := by
  unfold reachPass
  intro x hx
  rcases Finset.mem_union.mp hx with h2 | h2
  · exact Finset.mem_union_left _ (h h2)
  · obtain ⟨A, hA, h3⟩ := Finset.mem_biUnion.mp h2
    exact Finset.mem_union_right _ (Finset.mem_biUnion.mpr ⟨A, h hA, h3⟩)

theorem mem_reachUniv_of_body {start : String} {P : Productions}
    {p : String × List Body} (hp : p ∈ P) {b : Body} (hb : b ∈ p.2) {x : String}
    (hx : x ∈ ntNames b) : x ∈ reachUniv start P := by
  unfold reachUniv
  refine Finset.mem_insert_of_mem (Finset.mem_union_right _ ?_)
  have hgen : ∀ (L : Productions) (s : Finset String) (p : String × List Body), p ∈ L →
      b ∈ p.2 →
      x ∈ L.foldl (fun s p => p.2.foldl (fun s b => s ∪ ntNames b) s) s := by
    intro L
    induction L with
    | nil => intro s p2 hp2; cases hp2
    | cons q t ih =>
      intro s p2 hp2 hb2
      rw [List.foldl_cons]
      rcases List.mem_cons.mp hp2 with h | h
      · subst h
        have hgrow : ∀ (L2 : Productions) (a : Finset String),
            a ⊆ L2.foldl (fun s p => p.2.foldl (fun s b => s ∪ ntNames b) s) a := by
          intro L2
          induction L2 with
          | nil => intro a; exact Finset.Subset.refl a
          | cons q2 t2 ih2 =>
            intro a
            rw [List.foldl_cons]
            refine Finset.Subset.trans ?_ (ih2 _)
            have : ∀ (l2 : List Body) (a2 : Finset String),
                a2 ⊆ l2.foldl (fun s b => s ∪ ntNames b) a2 := by
              intro l2
              induction l2 with
              | nil => intro a2; exact Finset.Subset.refl a2
              | cons d t3 ih3 =>
                intro a2
                rw [List.foldl_cons]
                exact Finset.Subset.trans Finset.subset_union_left (ih3 _)
            exact this q2.2 a
        exact hgrow t _ (bodyNts_fold_of p2.2 s b hb2 x hx)
      · exact ih _ p2 h hb2
  exact hgen P ∅ p hp hb

theorem reachPass_univ_inv (start : String) (P : Productions) (r : Finset String)
    (hr : r ⊆ reachUniv start P) : reachPass P r ⊆ reachUniv start P := by
  unfold reachPass
  intro x hx
  rcases Finset.mem_union.mp hx with h | h
  · exact hr h
  · obtain ⟨A, hA, h2⟩ := Finset.mem_biUnion.mp h
    rcases bodyNts_fold_cases _ _ x h2 with h3 | ⟨b, hb, h4⟩
    · exact absurd h3 (Finset.not_mem_empty x)
    · rcases getD_entry P A with h0 | hmem
      · rw [h0] at hb; cases hb
      · exact mem_reachUniv_of_body hmem hb h4

theorem reach_isFix (start : String) (P : Productions) :
    reachPass P (reachable_nonterminals start P) = reachable_nonterminals start P := by
  unfold reachable_nonterminals
  refine iterFix_fix (reachPass P) (fun s => s ⊆ reachUniv start P) Finset.card
      ((reachUniv start P).card) ?_ ?_ ?_ _ _ ?_ ?_
  · intro s hs; exact reachPass_univ_inv start P s hs
  · intro s _ hne
    exact Finset.card_lt_card (Finset.ssubset_iff_subset_ne.mpr
      ⟨subset_reachPass P s, fun h => hne h.symm⟩)
  · intro s hs; exact Finset.card_le_card hs
  · intro x hx
    rcases Finset.mem_singleton.mp hx with h
    rw [h]
    unfold reachUniv
    exact Finset.mem_insert_self _ _
  · omega

theorem start_mem_reach (start : String) (P : Productions) :
    start ∈ reachable_nonterminals start P := by
  unfold reachable_nonterminals
  refine iterFix_inv _ (fun s => start ∈ s) ?_ _ _ (Finset.mem_singleton_self start)
  intro s hs
  exact subset_reachPass P s hs

theorem reach_closed (start : String) (P : Productions) {A : String}
    (hA : A ∈ reachable_nonterminals start P) {b : Body} (hb : b ∈ getD P A) :
    ∀ x ∈ ntNames b, x ∈ reachable_nonterminals start P := by
  intro x hx
  have hfix := reach_isFix start P
  have h1 : x ∈ reachPass P (reachable_nonterminals start P) := by
    unfold reachPass
    exact Finset.mem_union_right _
      (Finset.mem_biUnion.mpr ⟨A, hA, bodyNts_fold_of _ _ b hb x hx⟩)
  rw [hfix] at h1
  exact h1

/-! ### Reading the mappings `remove_useless_symbols` builds -/

theorem getD_finalOf (Q : Productions) (r : Finset String) (A : String) :
    getD (finalOf Q r) A = if A ∈ r then getD Q A else [] := by
  induction Q with
  | nil =>
    unfold finalOf
    simp [getD]
  | cons q t ih =>
    unfold finalOf at *
    rw [List.filter_cons]
    by_cases hq : q.1 ∈ r
    · rw [if_pos (by simpa using hq), getD_cons, getD_cons]
      by_cases hA : q.1 = A
      · subst hA
        rw [if_pos rfl, if_pos rfl, if_pos hq]
      · rw [if_neg hA, if_neg hA, ih]
    · rw [if_neg (by simpa using hq), getD_cons, ih]
      by_cases hA : q.1 = A
      · subst hA
        rw [if_pos rfl, if_neg hq, if_neg hq]
      · rw [if_neg hA]

theorem keys_finalOf {Q : Productions} {r : Finset String} {A : String} :
    A ∈ keysList (finalOf Q r) ↔ A ∈ keysList Q ∧ A ∈ r := by
  unfold finalOf keysList
  constructor
  · intro h
    obtain ⟨p, hp, he⟩ := List.mem_map.mp h
    have h2 := List.mem_filter.mp hp
    exact ⟨List.mem_map.mpr ⟨p, h2.1, he⟩, by
      subst he; exact of_decide_eq_true h2.2⟩
  · rintro ⟨h1, h2⟩
    obtain ⟨p, hp, he⟩ := List.mem_map.mp h1
    refine List.mem_map.mpr ⟨p, List.mem_filter.mpr ⟨hp, ?_⟩, he⟩
    subst he
    exact decide_eq_true h2

theorem getD_prodsGenOf (P : Productions) (g : Finset String) (A : String) :
    getD (prodsGenOf P g) A =
      if A ∈ g then
        (getD P A).filter (fun b => b.all (fun c => is_terminal c || decide (chStr c ∈ g)))
      else [] := by
  induction P with
  | nil =>
    unfold prodsGenOf
    simp [getD]
  | cons q t ih =>
    unfold prodsGenOf at *
    rw [List.filter_cons]
    by_cases hq : q.1 ∈ g
    · rw [if_pos (by simpa using hq), List.map_cons, getD_cons, getD_cons]
      by_cases hA : q.1 = A
      · subst hA
        rw [if_pos rfl, if_pos rfl, if_pos hq]
      · rw [if_neg hA, if_neg hA, ih]
    · rw [if_neg (by simpa using hq), getD_cons, ih]
      by_cases hA : q.1 = A
      · subst hA
        rw [if_pos rfl, if_neg hq, if_neg hq]
      · rw [if_neg hA]

theorem keys_prodsGenOf {P : Productions} {g : Finset String} {A : String} :
    A ∈ keysList (prodsGenOf P g) ↔ A ∈ keysList P ∧ A ∈ g := by
  unfold prodsGenOf keysList
  constructor
  · intro h
    obtain ⟨p, hp, he⟩ := List.mem_map.mp h
    obtain ⟨p2, hp2, he2⟩ := List.mem_map.mp hp
    have h2 := List.mem_filter.mp hp2
    have hk : p.1 = p2.1 := by rw [← he2]
    refine ⟨List.mem_map.mpr ⟨p2, h2.1, by rw [← he, hk]⟩, ?_⟩
    rw [← he, hk]
    exact of_decide_eq_true h2.2
  · rintro ⟨h1, h2⟩
    obtain ⟨p, hp, he⟩ := List.mem_map.mp h1
    refine List.mem_map.mpr ⟨(p.1, p.2.filter (fun b =>
      b.all (fun c => is_terminal c || decide (chStr c ∈ g)))), ?_, he⟩
    refine List.mem_map.mpr ⟨p, List.mem_filter.mpr ⟨hp, ?_⟩, rfl⟩
    subst he
    exact decide_eq_true h2

theorem keysList_cons (q : String × List Body) (t : Productions) :
    keysList (q :: t) = q.1 :: keysList t := rfl

theorem getD_append (Q R : Productions) (A : String) :
    getD (Q ++ R) A = if A ∈ keysList Q then getD Q A else getD R A := by
  induction Q with
  | nil => simp [keysList, getD]
  | cons q t ih =>
    rw [List.cons_append, getD_cons, getD_cons, keysList_cons]
    by_cases hA : q.1 = A
    · subst hA
      rw [if_pos rfl, if_pos rfl, if_pos (List.mem_cons_self _ _)]
    · rw [if_neg hA, if_neg hA, ih]
      by_cases hm : A ∈ keysList t
      · rw [if_pos hm, if_pos (List.mem_cons_of_mem _ hm)]
      · rw [if_neg hm, if_neg ?_]
        intro hc
        rcases List.mem_cons.mp hc with h2 | h2
        · exact hA h2.symm
        · exact hm h2

/-! ### More derivation toolkit -/

theorem derivN_mono {P1 P2 : Productions}
    (h : ∀ A b, b ∈ getD P1 A → b ∈ getD P2 A) :
    ∀ {n : Nat} {u v : List Char}, DerivN P1 n u v → DerivN P2 n u v := by
  intro n u v hd
  induction hd with
  | refl u => exact DerivN.refl u
  | step hs _ ih =>
    obtain ⟨x, y, N, b, hb, hu, hv⟩ := stepR_inv hs
    subst hu; subst hv
    exact DerivN.step (StepR.mk x y N b (h _ b hb)) ih

theorem no_step_of_all_nil {P : Productions} (h : ∀ p ∈ P, p.2 = [])
    {u v : List Char} (hs : StepR P u v) : False := by
  obtain ⟨x, y, N, b, hb, _, _⟩ := stepR_inv hs
  rcases getD_entry P (chStr N) with h2 | h2
  · rw [h2] at hb; cases hb
  · have h3 : getD P (chStr N) = [] := h _ h2
    rw [h3] at hb
    cases hb

theorem derivN_eq_of_all_nil {P : Productions} (h : ∀ p ∈ P, p.2 = []) :
    ∀ {n : Nat} {u w : List Char}, DerivN P n u w → w = u := by
  intro n u w hd
  cases hd with
  | refl => rfl
  | step hs _ => exact absurd hs (fun hs2 => no_step_of_all_nil h hs2)

theorem tstr_append {u v : List Char} (hu : TStr u = true) (hv : TStr v = true) :
    TStr (u ++ v) = true := by
  unfold TStr at *
  rw [List.all_append, hu, hv]
  rfl

theorem derivN_all_tstr {P : Productions} :
    ∀ (b : List Char), (∀ c ∈ b, ∃ m w, DerivN P m [c] w ∧ TStr w = true) →
      ∃ m w, DerivN P m b w ∧ TStr w = true := by
  intro b
  induction b with
  | nil => intro _; exact ⟨0, [], DerivN.refl [], rfl⟩
  | cons a t ih =>
    intro h
    obtain ⟨m1, w1, d1, ht1⟩ := h a (by simp)
    obtain ⟨m2, w2, d2, ht2⟩ := ih (fun c hc => h c (by simp [hc]))
    refine ⟨m1 + m2, w1 ++ w2, ?_, tstr_append ht1 ht2⟩
    have h3 := derivN_append d1 d2
    simpa using h3

/-! ### Character classes inside well-formed bodies -/

theorem WFbody_char {b : Body} {c : Char} (h : WFbody b = true) (hc : c ∈ b) :
    is_terminal c = true ∨ is_nonterminal c = true := by
  unfold WFbody at h
  rw [Bool.or_eq_true] at h
  rcases h with h | h
  · have hb : b = epsB := by simpa using h
    subst hb
    rcases List.mem_singleton.mp hc with rfl
    left; decide
  · rw [Bool.and_eq_true, List.all_eq_true] at h
    have h2 := h.2 c hc
    rw [Bool.or_eq_true, Bool.or_eq_true] at h2
    rcases h2 with (h3 | h3) | h3
    · exact Or.inl (lower_terminal h3)
    · exact Or.inl (digit_terminal h3)
    · exact Or.inr h3

theorem eps_chars_not_nonterminal {c : Char} (hc : c ∈ epsB) :
    is_nonterminal c = false := by
  rcases List.mem_singleton.mp hc with rfl
  decide

/-! ### Semantic soundness of the generating and reachable sets -/

theorem remove_useless_eq (start : String) (P : Productions) :
    remove_useless_symbols start P =
      if (cleaned start P).any (fun p => p.1 == start) then cleaned start P
      else cleaned start P ++ [(start, [])] := rfl

theorem gen_sem (start : String) (P : Productions) (hWF : WFP P = true) :
    ∀ y ∈ generating_nonterminals P, ∀ c, y = chStr c →
      y ∈ reachable_nonterminals start (prodsGenOf P (generating_nonterminals P)) →
      ∃ n w, DerivN (cleaned start P) n [c] w ∧ TStr w = true := by
  have hnd := WFP_nodup hWF
  have key : ∀ y ∈ generating_nonterminals P,
      y ∈ generating_nonterminals P ∧
      (∀ c, y = chStr c →
        y ∈ reachable_nonterminals start (prodsGenOf P (generating_nonterminals P)) →
        ∃ n w, DerivN (cleaned start P) n [c] w ∧ TStr w = true) := by
    have hpres : ∀ s, (∀ y ∈ s, y ∈ generating_nonterminals P ∧
        (∀ c, y = chStr c →
          y ∈ reachable_nonterminals start (prodsGenOf P (generating_nonterminals P)) →
          ∃ n w, DerivN (cleaned start P) n [c] w ∧ TStr w = true)) →
        ∀ y ∈ genPass P s, y ∈ generating_nonterminals P ∧
        (∀ c, y = chStr c →
          y ∈ reachable_nonterminals start (prodsGenOf P (generating_nonterminals P)) →
          ∃ n w, DerivN (cleaned start P) n [c] w ∧ TStr w = true) := by
      intro s hs
      refine foldIns_sound _ _ _ P s hs ?_
      intro s2 p hp hY hc
      have hsub : s2 ⊆ generating_nonterminals P := fun y hy => (hY y hy).1
      have hinG : p.1 ∈ generating_nonterminals P :=
        gen_closed P hp (genCond_mono s2 _ p hsub hc)
      refine ⟨hinG, ?_⟩
      intro c hceq hres
      obtain ⟨b, hbmem, hbok⟩ := List.any_eq_true.mp hc
      have hwf := WFP_entry hWF hp
      have hbwf := hwf.2 b hbmem
      have hbokA : ∀ d ∈ b, (!(is_nonterminal d) || decide (chStr d ∈ s2)) = true := by
        have h2 : genBodyOk s2 b = true := hbok
        unfold genBodyOk at h2
        exact List.all_eq_true.mp h2
      have hpred : b.all
          (fun d => is_terminal d || decide (chStr d ∈ generating_nonterminals P)) = true := by
        rw [List.all_eq_true]
        intro d hd
        rcases WFbody_char hbwf hd with ht | hnt
        · rw [ht]; rfl
        · have h3 := hbokA d hd
          rw [hnt] at h3
          simp only [Bool.not_true, Bool.false_or, decide_eq_true_iff] at h3
          have : chStr d ∈ generating_nonterminals P := hsub h3
          simp [this]
      have hbQ : b ∈ getD (prodsGenOf P (generating_nonterminals P)) p.1 := by
        rw [getD_prodsGenOf, if_pos hinG]
        exact List.mem_filter.mpr ⟨mem_getD_of_entry hnd hp hbmem, hpred⟩
      have hbFIN : b ∈ getD (cleaned start P) p.1 := by
        unfold cleaned
        rw [getD_finalOf, if_pos hres]
        exact hbQ
      have hstep : StepR (cleaned start P) [c] (interp b) := by
        have hbFIN2 : b ∈ getD (cleaned start P) (chStr c) := by rw [← hceq]; exact hbFIN
        have h4 := StepR.mk (P := cleaned start P) [] [] c b hbFIN2
        simpa using h4
      have htail : ∀ d ∈ interp b, ∃ m w, DerivN (cleaned start P) m [d] w ∧ TStr w = true := by
        intro d hd
        have hdb : d ∈ b := by
          unfold interp at hd
          by_cases hbe : b = epsB
          · rw [if_pos hbe] at hd; cases hd
          · rw [if_neg hbe] at hd; exact hd
        rcases WFbody_char hbwf hdb with ht | hnt
        · exact ⟨0, [d], DerivN.refl [d], by simp [TStr, ht]⟩
        · have h3 := hbokA d hdb
          rw [hnt] at h3
          simp only [Bool.not_true, Bool.false_or, decide_eq_true_iff] at h3
          have hdres : chStr d ∈
              reachable_nonterminals start (prodsGenOf P (generating_nonterminals P)) := by
            have h5 : chStr d ∈ ntNames b := mem_ntNames_iff.mpr ⟨d, hdb, hnt, rfl⟩
            exact reach_closed start _ hres hbQ _ h5
          exact (hY _ h3).2 d rfl hdres
      obtain ⟨m, w, dtail, hwt⟩ := derivN_all_tstr (interp b) htail
      exact ⟨m + 1, w, DerivN.step hstep dtail, hwt⟩
    intro y hy
    unfold generating_nonterminals at hy
    refine iterFix_inv (genPass P) _ hpres _ ∅ ?_ y hy
    intro z hz
    exact absurd hz (Finset.not_mem_empty z)
  intro y hy
  exact (key y hy).2

theorem reach_sem (s0 : Char) (P : Productions) :
    ∀ A ∈ reachable_nonterminals (chStr s0) (prodsGenOf P (generating_nonterminals P)),
      ∃ c, A = chStr c ∧
        ∃ n u v, DerivN (cleaned (chStr s0) P) n [s0] (u ++ c :: v) := by
  have hpres : ∀ r,
      (r ⊆ reachable_nonterminals (chStr s0) (prodsGenOf P (generating_nonterminals P)) ∧
        ∀ y ∈ r, ∃ c, y = chStr c ∧
          ∃ n u v, DerivN (cleaned (chStr s0) P) n [s0] (u ++ c :: v)) →
      (reachPass (prodsGenOf P (generating_nonterminals P)) r ⊆
          reachable_nonterminals (chStr s0) (prodsGenOf P (generating_nonterminals P)) ∧
        ∀ y ∈ reachPass (prodsGenOf P (generating_nonterminals P)) r, ∃ c, y = chStr c ∧
          ∃ n u v, DerivN (cleaned (chStr s0) P) n [s0] (u ++ c :: v)) := by
    rintro r ⟨hsub, hder⟩
    constructor
    · intro x hx
      have h2 := reachPass_mono (prodsGenOf P (generating_nonterminals P)) hsub hx
      rw [reach_isFix] at h2
      exact h2
    · intro y hy
      unfold reachPass at hy
      rcases Finset.mem_union.mp hy with h | h
      · exact hder y h
      · obtain ⟨A, hA, h2⟩ := Finset.mem_biUnion.mp h
        rcases bodyNts_fold_cases _ _ y h2 with h3 | ⟨b, hb, h4⟩
        · exact absurd h3 (Finset.not_mem_empty y)
        · obtain ⟨d, hdb, hdnt, hyd⟩ := mem_ntNames_iff.mp h4
          obtain ⟨a, hAa, n, u, v, dA⟩ := hder A hA
          have hARES : A ∈
              reachable_nonterminals (chStr s0) (prodsGenOf P (generating_nonterminals P)) :=
            hsub hA
          have hbFIN : b ∈ getD (cleaned (chStr s0) P) A := by
            unfold cleaned
            rw [getD_finalOf, if_pos hARES]
            exact hb
          have hbFIN2 : b ∈ getD (cleaned (chStr s0) P) (chStr a) := by
            rw [← hAa]; exact hbFIN
          have hstep : StepR (cleaned (chStr s0) P) (u ++ a :: v) (u ++ (interp b ++ v)) :=
            StepR.mk u v a b hbFIN2
          have hbne : b ≠ epsB := by
            intro he
            rw [he] at hdb
            exact absurd hdnt (by rw [eps_chars_not_nonterminal hdb]; exact Bool.false_ne_true)
          have hdi : d ∈ interp b := by
            unfold interp
            rw [if_neg hbne]
            exact hdb
          obtain ⟨b1, b2, hbsplit⟩ := List.append_of_mem hdi
          have dfull : DerivN (cleaned (chStr s0) P) (n + 1) [s0] (u ++ (interp b ++ v)) :=
            derivN_trans dA (DerivN.step hstep (DerivN.refl _))
          refine ⟨d, hyd, n + 1, u ++ b1, b2 ++ v, ?_⟩
          rw [hbsplit] at dfull
          simpa [List.append_assoc] using dfull
  have hbase :
      ({chStr s0} : Finset String) ⊆
        reachable_nonterminals (chStr s0) (prodsGenOf P (generating_nonterminals P)) ∧
      ∀ y ∈ ({chStr s0} : Finset String), ∃ c, y = chStr c ∧
        ∃ n u v, DerivN (cleaned (chStr s0) P) n [s0] (u ++ c :: v) := by
    constructor
    · intro x hx
      rw [Finset.mem_singleton.mp hx]
      exact start_mem_reach (chStr s0) _
    · intro y hy
      refine ⟨s0, Finset.mem_singleton.mp hy, 0, [], [], ?_⟩
      exact DerivN.refl [s0]
  intro A hA
  have hfinal := iterFix_inv (reachPass (prodsGenOf P (generating_nonterminals P))) _ hpres
      ((reachUniv (chStr s0) (prodsGenOf P (generating_nonterminals P))).card + 1)
      ({chStr s0} : Finset String) hbase
  exact hfinal.2 A hA

/-- C6: as stated the claim fails (see the counterexample below): the start
symbol is always retained, even when it is not generating, in which case its
entry is reachable but derives no terminal string.  Amended form: every
nonterminal with an entry in the output of `remove_useless_symbols` is a
single-character name that occurs in a sentential form derivable from the
start symbol inside the returned grammar, and, whenever its body set in the
output is nonempty, it also derives some string of terminals inside the
returned grammar. -/
theorem claim_C6 (s0 : Char) (P : Productions) (hWF : WFP P = true) :
    ∀ A ∈ keysList (remove_useless_symbols (chStr s0) P),
      ∃ c, A = chStr c ∧
        (∃ n u v, DerivN (remove_useless_symbols (chStr s0) P) n [s0] (u ++ c :: v)) ∧
        (getD (remove_useless_symbols (chStr s0) P) A ≠ [] →
          ∃ n w, DerivN (remove_useless_symbols (chStr s0) P) n [c] w ∧ TStr w = true) := by
  intro A hA
  have hlift : ∀ (B : String) (b : Body),
      b ∈ getD (cleaned (chStr s0) P) B →
        b ∈ getD (remove_useless_symbols (chStr s0) P) B := by
    intro B b hb
    rw [remove_useless_eq]
    by_cases hany : (cleaned (chStr s0) P).any (fun p => p.1 == chStr s0) = true
    · rw [if_pos hany]; exact hb
    · rw [if_neg hany, getD_append,
        if_pos (mem_keys_of_getD_ne_nil (List.ne_nil_of_mem hb))]
      exact hb
  by_cases hAF : A ∈ keysList (cleaned (chStr s0) P)
  · have hAF2 : A ∈ keysList (finalOf (prodsGenOf P (generating_nonterminals P))
        (reachable_nonterminals (chStr s0) (prodsGenOf P (generating_nonterminals P)))) := hAF
    obtain ⟨hAQ, hARES⟩ := keys_finalOf.mp hAF2
    obtain ⟨hAP, hAG⟩ := keys_prodsGenOf.mp hAQ
    obtain ⟨c, hAc, n, u, v, dreach⟩ := reach_sem s0 P A hARES
    obtain ⟨m, w, dgen, hwt⟩ := gen_sem (chStr s0) P hWF A hAG c hAc hARES
    exact ⟨c, hAc, ⟨n, u, v, derivN_mono hlift dreach⟩,
      fun _ => ⟨m, w, derivN_mono hlift dgen, hwt⟩⟩
  · have hAs : A = chStr s0 := by
      rw [remove_useless_eq] at hA
      by_cases hany : (cleaned (chStr s0) P).any (fun p => p.1 == chStr s0) = true
      · rw [if_pos hany] at hA; exact absurd hA hAF
      · rw [if_neg hany] at hA
        unfold keysList at hA
        rw [List.map_append] at hA
        rcases List.mem_append.mp hA with h | h
        · exact absurd h hAF
        · simpa using h
    have hany : ¬((cleaned (chStr s0) P).any (fun p => p.1 == chStr s0) = true) := by
      intro hc
      obtain ⟨p, hp, he⟩ := List.any_eq_true.mp hc
      have hps : p.1 = chStr s0 := by simpa using he
      have hmem : p.1 ∈ keysList (cleaned (chStr s0) P) := List.mem_map.mpr ⟨p, hp, rfl⟩
      rw [hps] at hmem
      apply hAF
      rw [hAs]
      exact hmem
    have hgd : getD (remove_useless_symbols (chStr s0) P) A = [] := by
      rw [remove_useless_eq, if_neg hany, getD_append, if_neg hAF, hAs, getD_cons, if_pos rfl]
    refine ⟨s0, hAs, ⟨0, [], [], ?_⟩, fun hne => absurd hgd hne⟩
    exact DerivN.refl [s0]

set_option maxHeartbeats 2000000 in
set_option maxRecDepth 10000 in
/-- C6, witness: on the grammar S → a every key of the useless-symbol
removal's output is reachable from S and derives a terminal string. -/
theorem claim_C6_witness :
    WFP [("S", [['a']])] = true ∧
    (∃ c, "S" = chStr c ∧
      (∃ n u v, DerivN (remove_useless_symbols (chStr 'S') [("S", [['a']])]) n
          ['S'] (u ++ c :: v)) ∧
      (getD (remove_useless_symbols (chStr 'S') [("S", [['a']])]) "S" ≠ [] →
        ∃ n w, DerivN (remove_useless_symbols (chStr 'S') [("S", [['a']])]) n [c] w ∧
          TStr w = true)) :=
  ⟨by decide, claim_C6 'S' [("S", [['a']])] (by decide) "S" (by decide)⟩

set_option maxHeartbeats 2000000 in
set_option maxRecDepth 10000 in
/-- C6, counterexample to the claim as frozen: on the grammar S → SS the
returned mapping is { S ↦ ∅ }, so S has an entry, but S derives no terminal
string within the returned grammar. -/
theorem claim_C6_counterexample :
    "S" ∈ keysList (remove_useless_symbols "S" [("S", [['S', 'S']])]) ∧
    ¬(∃ n w, DerivN (remove_useless_symbols "S" [("S", [['S', 'S']])]) n ['S'] w ∧
        TStr w = true) := by
  constructor
  · decide
  · rintro ⟨n, w, d, ht⟩
    have hall : ∀ p ∈ remove_useless_symbols "S" [("S", [['S', 'S']])], p.2 = [] := by decide
    have hw := derivN_eq_of_all_nil hall d
    rw [hw] at ht
    exact absurd ht (by decide)

/-! ## The start symbol through `remove_useless_symbols` and `to_cnf` -/

theorem mem_addB_cases {Q : Productions} {A : String} {b : Body} {q : String × List Body}
    (hq : q ∈ addB Q A b) : q ∈ Q ∨ q.1 = A := by
  induction Q with
  | nil => exact absurd hq (List.not_mem_nil q)
  | cons p t ih =>
    unfold addB at hq
    by_cases h : p.1 = A
    · rw [if_pos h] at hq
      rcases List.mem_cons.mp hq with h2 | h2
      · right
        rw [h2]
        exact h
      · exact Or.inl (List.mem_cons_of_mem _ h2)
    · rw [if_neg h] at hq
      rcases List.mem_cons.mp hq with h2 | h2
      · exact Or.inl (by rw [h2]; exact List.mem_cons_self _ _)
      · rcases ih h2 with h3 | h3
        · exact Or.inl (List.mem_cons_of_mem _ h3)
        · exact Or.inr h3

theorem mem_setdefaultAdd_cases {Q : Productions} {A : String} {b : Body}
    {q : String × List Body} (hq : q ∈ setdefaultAdd Q A b) : q ∈ Q ∨ q.1 = A := by
  induction Q with
  | nil =>
    right
    rw [List.mem_singleton.mp hq]
  | cons p t ih =>
    unfold setdefaultAdd at hq
    by_cases h : p.1 = A
    · rw [if_pos h] at hq
      rcases List.mem_cons.mp hq with h2 | h2
      · right
        rw [h2]
        exact h
      · exact Or.inl (List.mem_cons_of_mem _ h2)
    · rw [if_neg h] at hq
      rcases List.mem_cons.mp hq with h2 | h2
      · exact Or.inl (by rw [h2]; exact List.mem_cons_self _ _)
      · rcases ih h2 with h3 | h3
        · exact Or.inl (List.mem_cons_of_mem _ h3)
        · exact Or.inr h3

theorem keys_sub_setdefaultAdd (Q : Productions) (A : String) (b : Body) :
    ∀ x ∈ keysList Q, x ∈ keysList (setdefaultAdd Q A b) := by
  induction Q with
  | nil => intro x hx; exact absurd hx (List.not_mem_nil x)
  | cons p t ih =>
    intro x hx
    unfold setdefaultAdd
    by_cases h : p.1 = A
    · rw [if_pos h]
      exact hx
    · rw [if_neg h, keysList_cons]
      rw [keysList_cons] at hx
      rcases List.mem_cons.mp hx with h2 | h2
      · exact List.mem_cons.mpr (Or.inl h2)
      · exact List.mem_cons.mpr (Or.inr (ih x h2))

theorem liftChar_eq_none (st : LiftSt) (c : Char) (ht : is_terminal c = true)
    (hf : st.tv.find? (fun p => p.1 == c) = none) :
    liftChar st c =
      if (decide (String.mk [c.toUpper] ∈ st.used) || !c.toUpper.isUpper) = true then
        ((fresh_var st.used ("T" ++ chStr c)).1,
          ⟨insert (fresh_var st.used ("T" ++ chStr c)).1 (fresh_var st.used ("T" ++ chStr c)).2,
            st.tv ++ [(c, (fresh_var st.used ("T" ++ chStr c)).1)], st.out⟩)
      else (String.mk [c.toUpper],
        ⟨insert (String.mk [c.toUpper]) st.used,
          st.tv ++ [(c, String.mk [c.toUpper])], st.out⟩) := by
  unfold liftChar
  rw [if_pos ht, hf]

theorem liftChar_inv (start : String) (st : LiftSt) (c : Char)
    (h2 : start ∈ st.used) (h3 : ∀ q ∈ st.tv, q.2 ≠ start) :
    (liftChar st c).2.out = st.out ∧ start ∈ (liftChar st c).2.used ∧
      ∀ q ∈ (liftChar st c).2.tv, q.2 ≠ start := by
  by_cases ht : is_terminal c = true
  · cases hf : st.tv.find? (fun p => p.1 == c) with
    | some p =>
      have he : liftChar st c = (p.2, st) := by
        unfold liftChar
        rw [if_pos ht, hf]
      rw [he]
      exact ⟨rfl, h2, h3⟩
    | none =>
      rw [liftChar_eq_none st c ht hf]
      by_cases hg : (decide (String.mk [c.toUpper] ∈ st.used) || !c.toUpper.isUpper) = true
      · rw [if_pos hg]
        refine ⟨rfl, ?_, ?_⟩
        · exact Finset.mem_insert_of_mem (fresh_var_used st.used ("T" ++ chStr c) h2)
        · intro q hq
          rcases List.mem_append.mp hq with h | h
          · exact h3 q h
          · obtain rfl := List.mem_singleton.mp h
            intro hf2
            have hf3 : (fresh_var st.used ("T" ++ chStr c)).1 = start := hf2
            exact fresh_var_not_mem st.used ("T" ++ chStr c) (by rw [hf3]; exact h2)
      · rw [if_neg hg]
        refine ⟨rfl, Finset.mem_insert_of_mem h2, ?_⟩
        intro q hq
        rcases List.mem_append.mp hq with h | h
        · exact h3 q h
        · obtain rfl := List.mem_singleton.mp h
          intro hf2
          have hf3 : String.mk [c.toUpper] = start := hf2
          exact hg (by rw [hf3]; simp [h2])
  · have he : liftChar st c = (chStr c, st) := by
      unfold liftChar
      rw [if_neg ht]
    rw [he]
    exact ⟨rfl, h2, h3⟩

theorem liftBody_inv (start : String) (st : LiftSt) (b : Body)
    (h2 : start ∈ st.used) (h3 : ∀ q ∈ st.tv, q.2 ≠ start) :
    (liftBody st b).2.out = st.out ∧ start ∈ (liftBody st b).2.used ∧
      ∀ q ∈ (liftBody st b).2.tv, q.2 ≠ start := by
  unfold liftBody
  have h := foldl_induction
    (fun (acc : Body × LiftSt) c =>
      ((acc.1 ++ (liftChar acc.2 c).1.data, (liftChar acc.2 c).2) : Body × LiftSt))
    (fun acc => acc.2.out = st.out ∧ start ∈ acc.2.used ∧ ∀ q ∈ acc.2.tv, q.2 ≠ start)
    b (([] : Body), st) ⟨rfl, h2, h3⟩
    (fun acc c _ hacc =>
      ⟨by rw [(liftChar_inv start acc.2 c hacc.2.1 hacc.2.2).1, hacc.1],
        (liftChar_inv start acc.2 c hacc.2.1 hacc.2.2).2.1,
        (liftChar_inv start acc.2 c hacc.2.1 hacc.2.2).2.2⟩)
  exact h

theorem cnf1Step_inv (start A : String) (hA : ¬(A = start)) (st : LiftSt) (b : Body)
    (h1 : ∀ p ∈ st.out, p.1 = start → p.2 = [])
    (h2 : start ∈ st.used) (h3 : ∀ q ∈ st.tv, q.2 ≠ start) :
    (∀ p ∈ (cnf1Step start A st b).out, p.1 = start → p.2 = []) ∧
      keysList (cnf1Step start A st b).out = keysList st.out ∧
      start ∈ (cnf1Step start A st b).used ∧
      ∀ q ∈ (cnf1Step start A st b).tv, q.2 ≠ start := by
  unfold cnf1Step
  by_cases hc1 : b = epsB ∧ A ≠ start
  · rw [if_pos hc1]
    exact ⟨h1, rfl, h2, h3⟩
  · rw [if_neg hc1]
    by_cases hc2 : 2 ≤ b.length
    · rw [if_pos hc2]
      obtain ⟨ho, hu, htv⟩ := liftBody_inv start st b h2 h3
      refine ⟨?_, ?_, hu, htv⟩
      · intro p hp hps
        rcases mem_addB_cases hp with h | h
        · rw [ho] at h
          exact h1 p h hps
        · exact absurd (h.symm.trans hps) hA
      · show keysList (addB (liftBody st b).2.out A (liftBody st b).1) = keysList st.out
        rw [keysList_addB, ho]
    · rw [if_neg hc2]
      refine ⟨?_, ?_, h2, h3⟩
      · intro p hp hps
        rcases mem_addB_cases hp with h | h
        · exact h1 p h hps
        · exact absurd (h.symm.trans hps) hA
      · show keysList (addB st.out A b) = keysList st.out
        rw [keysList_addB]

theorem cnf1Of_eq (start : String) (P : Productions) :
    cnf1Of start P =
      (P.foldl (fun st p => p.2.foldl (cnf1Step start p.1) st)
        (⟨(keysList P).toFinset, [], P.map (fun p => (p.1, ([] : List Body)))⟩ : LiftSt)).tv.foldl
        (fun Q p => setdefaultAdd Q p.2 [p.1])
        (P.foldl (fun st p => p.2.foldl (cnf1Step start p.1) st)
          (⟨(keysList P).toFinset, [], P.map (fun p => (p.1, ([] : List Body)))⟩ : LiftSt)).out := rfl

theorem cnf1Of_start_props (start : String) (P : Productions)
    (hnd : (keysList P).Nodup) (hstart : start ∈ keysList P) (h0 : getD P start = []) :
    (∀ p ∈ cnf1Of start P, p.1 = start → p.2 = []) ∧ start ∈ keysList (cnf1Of start P) := by
  rw [cnf1Of_eq]
  have hinit : (∀ p ∈ P.map (fun p => (p.1, ([] : List Body))), p.1 = start → p.2 = []) ∧
      keysList (P.map (fun p => (p.1, ([] : List Body)))) = keysList P ∧
      start ∈ ((keysList P).toFinset : Finset String) ∧
      (∀ q ∈ ([] : List (Char × String)), q.2 ≠ start) := by
    refine ⟨?_, ?_, ?_, ?_⟩
    · intro p hp _
      obtain ⟨q, hq, he⟩ := List.mem_map.mp hp
      rw [← he]
    · exact keysList_map_val (fun _ _ => []) P
    · exact List.mem_toFinset.mpr hstart
    · intro q hq
      exact absurd hq (List.not_mem_nil q)
  have hstep : ∀ (st : LiftSt) (p : String × List Body), p ∈ P →
      ((∀ p2 ∈ st.out, p2.1 = start → p2.2 = []) ∧ keysList st.out = keysList P ∧
        start ∈ st.used ∧ ∀ q ∈ st.tv, q.2 ≠ start) →
      ((∀ p2 ∈ (p.2.foldl (cnf1Step start p.1) st).out, p2.1 = start → p2.2 = []) ∧
        keysList (p.2.foldl (cnf1Step start p.1) st).out = keysList P ∧
        start ∈ (p.2.foldl (cnf1Step start p.1) st).used ∧
        ∀ q ∈ (p.2.foldl (cnf1Step start p.1) st).tv, q.2 ≠ start) := by
    intro st p hp hJ
    by_cases hps : p.1 = start
    · have hp2 : p.2 = [] := by
        have hg := getD_of_mem hnd hp
        rw [hps, h0] at hg
        exact hg.symm
      rw [hp2]
      exact hJ
    · refine foldl_induction (cnf1Step start p.1)
        (fun st2 => (∀ p2 ∈ st2.out, p2.1 = start → p2.2 = []) ∧
          keysList st2.out = keysList P ∧ start ∈ st2.used ∧ ∀ q ∈ st2.tv, q.2 ≠ start)
        p.2 st hJ ?_
      intro st2 b _ hJ2
      obtain ⟨g1, gk, gu, gtv⟩ := hJ2
      have hc := cnf1Step_inv start p.1 hps st2 b g1 gu gtv
      exact ⟨hc.1, hc.2.1.trans gk, hc.2.2.1, hc.2.2.2⟩
  have hbig := foldl_induction (fun st p => p.2.foldl (cnf1Step start p.1) st)
      (fun st => (∀ p ∈ st.out, p.1 = start → p.2 = []) ∧ keysList st.out = keysList P ∧
        start ∈ st.used ∧ ∀ q ∈ st.tv, q.2 ≠ start)
      P (⟨(keysList P).toFinset, [], P.map (fun p => (p.1, ([] : List Body)))⟩ : LiftSt)
      hinit hstep
  obtain ⟨h1, hk, hu, htv⟩ := hbig
  refine foldl_induction (fun (Q : Productions) (p : Char × String) => setdefaultAdd Q p.2 [p.1])
      (fun Q => (∀ p ∈ Q, p.1 = start → p.2 = []) ∧ start ∈ keysList Q)
      _ _ ⟨h1, by rw [hk]; exact hstart⟩ ?_
  intro Q q hq hJ
  refine ⟨?_, keys_sub_setdefaultAdd Q q.2 [q.1] start hJ.2⟩
  intro p hp hps
  rcases mem_setdefaultAdd_cases hp with h | h
  · exact hJ.1 p h hps
  · exact absurd (h.symm.trans hps) (htv q hq)

theorem binChain_inv (start : String) :
    ∀ (b : Body) (qu : Productions × Finset String) (prev : String),
      (∀ p ∈ qu.1, p.1 = start → p.2 = []) → start ∈ qu.2 → ¬(prev = start) →
      (∀ p ∈ (binChain qu prev b).1, p.1 = start → p.2 = []) ∧
        start ∈ (binChain qu prev b).2 := by
  intro b
  induction b with
  | nil => intro qu prev h1 h2 _; exact ⟨h1, h2⟩
  | cons x t ih =>
    intro qu prev h1 h2 h3
    rcases t with _ | ⟨y, t1⟩
    · exact ⟨h1, h2⟩
    · rcases t1 with _ | ⟨z, t2⟩
      · refine ⟨?_, h2⟩
        intro p hp hps
        rcases mem_setdefaultAdd_cases hp with h | h
        · exact h1 p h hps
        · exact absurd (h.symm.trans hps) h3
      · have heq : binChain qu prev (x :: y :: z :: t2) =
            binChain (setdefaultAdd qu.1 prev (x :: (fresh_var qu.2 "Y").1.data),
              (fresh_var qu.2 "Y").2) (fresh_var qu.2 "Y").1 (y :: z :: t2) := rfl
        rw [heq]
        refine ih _ _ ?_ ?_ ?_
        · intro p hp hps
          rcases mem_setdefaultAdd_cases hp with h | h
          · exact h1 p h hps
          · exact absurd (h.symm.trans hps) h3
        · exact fresh_var_used qu.2 "Y" h2
        · intro he
          exact fresh_var_not_mem qu.2 "Y" (by rw [he]; exact h2)

theorem cnf2Step_inv (start A : String) (hA : ¬(A = start))
    (qu : Productions × Finset String) (b : Body)
    (h1 : ∀ p ∈ qu.1, p.1 = start → p.2 = []) (h2 : start ∈ qu.2) :
    (∀ p ∈ (cnf2Step start A qu b).1, p.1 = start → p.2 = []) ∧
      start ∈ (cnf2Step start A qu b).2 := by
  unfold cnf2Step
  rw [if_neg (fun hand => hA hand.2)]
  by_cases hlen : b.length ≤ 2
  · rw [if_pos hlen]
    refine ⟨?_, h2⟩
    intro p hp hps
    rcases mem_addB_cases hp with h | h
    · exact h1 p h hps
    · exact absurd (h.symm.trans hps) hA
  · rw [if_neg hlen]
    exact binChain_inv start b qu A h1 h2 hA

theorem to_cnf_eq (start : String) (P : Productions) :
    to_cnf start P =
      ((cnf1Of start P).foldl (fun qu p => p.2.foldl (cnf2Step start p.1) qu)
        (((cnf1Of start P).map (fun p => (p.1, ([] : List Body))),
          (keysList (cnf1Of start P)).toFinset) : Productions × Finset String)).1 := rfl

theorem to_cnf_start_empty (start : String) (P : Productions)
    (hnd : (keysList P).Nodup) (hstart : start ∈ keysList P) (h0 : getD P start = []) :
    getD (to_cnf start P) start = [] := by
  obtain ⟨hc1, hc1k⟩ := cnf1Of_start_props start P hnd hstart h0
  have hbase : (∀ p ∈ (cnf1Of start P).map (fun p => (p.1, ([] : List Body))),
      p.1 = start → p.2 = []) ∧
      start ∈ ((keysList (cnf1Of start P)).toFinset : Finset String) := by
    constructor
    · intro p hp _
      obtain ⟨q, hq, he⟩ := List.mem_map.mp hp
      rw [← he]
    · exact List.mem_toFinset.mpr hc1k
  have hstep : ∀ (qu : Productions × Finset String) (p : String × List Body),
      p ∈ cnf1Of start P →
      ((∀ p2 ∈ qu.1, p2.1 = start → p2.2 = []) ∧ start ∈ qu.2) →
      ((∀ p2 ∈ (p.2.foldl (cnf2Step start p.1) qu).1, p2.1 = start → p2.2 = []) ∧
        start ∈ (p.2.foldl (cnf2Step start p.1) qu).2) := by
    intro qu p hp hJ
    by_cases hps : p.1 = start
    · have hp2 : p.2 = [] := hc1 p hp hps
      rw [hp2]
      exact hJ
    · refine foldl_induction (cnf2Step start p.1)
        (fun qu2 => (∀ p2 ∈ qu2.1, p2.1 = start → p2.2 = []) ∧ start ∈ qu2.2)
        p.2 qu hJ ?_
      intro qu2 b _ hJ2
      exact cnf2Step_inv start p.1 hps qu2 b hJ2.1 hJ2.2
  have hinv := foldl_induction (fun qu p => p.2.foldl (cnf2Step start p.1) qu)
      (fun qu => (∀ p2 ∈ qu.1, p2.1 = start → p2.2 = []) ∧ start ∈ qu.2)
      (cnf1Of start P)
      (((cnf1Of start P).map (fun p => (p.1, ([] : List Body))),
        (keysList (cnf1Of start P)).toFinset) : Productions × Finset String)
      hbase hstep
  rw [to_cnf_eq]
  rcases getD_entry ((cnf1Of start P).foldl (fun qu p => p.2.foldl (cnf2Step start p.1) qu)
      (((cnf1Of start P).map (fun p => (p.1, ([] : List Body))),
        (keysList (cnf1Of start P)).toFinset) : Productions × Finset String)).1 start with h | h
  · exact h
  · exact hinv.1 _ h rfl

theorem remove_useless_start_mem (start : String) (P : Productions) :
    start ∈ keysList (remove_useless_symbols start P) := by
  rw [remove_useless_eq]
  by_cases hany : (cleaned start P).any (fun p => p.1 == start) = true
  · rw [if_pos hany]
    obtain ⟨p, hp, he⟩ := List.any_eq_true.mp hany
    have hps : p.1 = start := by simpa using he
    exact List.mem_map.mpr ⟨p, hp, hps⟩
  · rw [if_neg hany]
    unfold keysList
    rw [List.map_append]
    exact List.mem_append.mpr (Or.inr (by simp))

theorem remove_useless_start_empty (start : String) (P : Productions)
    (hng : start ∉ generating_nonterminals P) :
    getD (remove_useless_symbols start P) start = [] := by
  have hnk : start ∉ keysList (cleaned start P) := by
    intro hk
    have hk2 : start ∈ keysList (finalOf (prodsGenOf P (generating_nonterminals P))
        (reachable_nonterminals start (prodsGenOf P (generating_nonterminals P)))) := hk
    obtain ⟨hkQ, _⟩ := keys_finalOf.mp hk2
    exact hng (keys_prodsGenOf.mp hkQ).2
  have hany : ¬((cleaned start P).any (fun p => p.1 == start) = true) := by
    intro hc
    obtain ⟨p, hp, he⟩ := List.any_eq_true.mp hc
    have hps : p.1 = start := by simpa using he
    exact hnk (List.mem_map.mpr ⟨p, hp, hps⟩)
  rw [remove_useless_eq, if_neg hany, getD_append, if_neg hnk, getD_cons, if_pos rfl]

/-- C7: the mapping `remove_useless_symbols` returns always has an entry for
the start symbol — with an empty body set rather than a failure when the
start symbol is not generating — and `to_cnf` applied to a grammar whose
start symbol has an entry with an empty body set returns a grammar with no
productions for the start symbol. -/
theorem claim_C7 (start : String) (P : Productions) :
    (start ∈ keysList (remove_useless_symbols start P) ∧
      (start ∉ generating_nonterminals P →
        getD (remove_useless_symbols start P) start = [])) ∧
    ((keysList P).Nodup → start ∈ keysList P → getD P start = [] →
      getD (to_cnf start P) start = []) :=
  ⟨⟨remove_useless_start_mem start P,
      fun hng => remove_useless_start_empty start P hng⟩,
    fun hnd hs h0 => to_cnf_start_empty start P hnd hs h0⟩

set_option maxHeartbeats 2000000 in
set_option maxRecDepth 10000 in
/-- C7, witness: on S → S (nothing generating) the start symbol keeps an
empty entry, and `to_cnf` on S ↦ ∅, A ↦ {a} returns no production for S. -/
theorem claim_C7_witness :
    ("S" ∈ keysList (remove_useless_symbols "S" [("S", [['S']])]) ∧
      getD (remove_useless_symbols "S" [("S", [['S']])]) "S" = []) ∧
    getD (to_cnf "S" [("S", []), ("A", [['a']])]) "S" = [] :=
  ⟨⟨(claim_C7 "S" [("S", [['S']])]).1.1,
      (claim_C7 "S" [("S", [['S']])]).1.2 (by decide)⟩,
    (claim_C7 "S" [("S", []), ("A", [['a']])]).2 (by decide) (by decide) (by decide)⟩

/-! ## The CNF shape and language preservation fail on the minted names -/

theorem derivN_invariant {P : Productions} (R : List Char → Prop)
    (hstep : ∀ u v, R u → StepR P u v → R v) :
    ∀ {n : Nat} {u w : List Char}, DerivN P n u w → R u → R w := by
  intro n u w hd
  induction hd with
  | refl u => exact id
  | step hs _ ih => exact fun hu => ih (hstep _ _ hu hs)

theorem stepR_mem_ne_nil {P : Productions} {u v : List Char} (h : StepR P u v) :
    ∃ N ∈ u, getD P (chStr N) ≠ [] := by
  obtain ⟨x, y, N, b, hb, hu, _⟩ := stepR_inv h
  refine ⟨N, ?_, ?_⟩
  · rw [hu]
    exact List.mem_append.mpr (Or.inr (List.mem_cons_self _ _))
  · intro he
    rw [he] at hb
    cases hb

set_option maxHeartbeats 4000000 in
set_option maxRecDepth 10000 in
/-- C1: refuted.  The grammar A → aa is parser-shaped and accepted by the
pipeline, yet the grammar the pipeline's `to_cnf` returns for it contains
bodies that are neither a single terminal, nor two nonterminals, nor the
start's ε body: the fresh names minted for the terminal lifter ("Ta1") and
for the binarizer ("Y1", ...) are multi-character strings spliced into
character-level bodies, leaving bodies such as aY2 and a1. -/
theorem claim_C1 :
    WFP [("A", [['a', 'a']])] = true ∧
    cnfShapeB "A" (pipeline "A" [("A", [['a', 'a']])]) = false := by
  constructor
  · decide
  · decide

set_option maxHeartbeats 4000000 in
set_option maxRecDepth 10000 in
/-- C3: refuted.  The word aa is derivable from A in the original grammar
A → aa, but not in the grammar the pipeline returns for it: the only
single-character key of the output is A itself, whose sole body is the
three-character string TY1 (the first character of the minted lifter name
"Ta1" followed by the characters of the minted binarizer name "Y1"), and
none of T, Y, 1 has a production, so the output derives nothing. -/
theorem claim_C3 :
    WFP [("A", [['a', 'a']])] = true ∧
    (∃ n, DerivN [("A", [['a', 'a']])] n ['A'] ['a', 'a']) ∧
    ¬(∃ n, DerivN (pipeline "A" [("A", [['a', 'a']])]) n ['A'] ['a', 'a']) := by
  refine ⟨by decide, ⟨1, ?_⟩, ?_⟩
  · have hb : (['a', 'a'] : Body) ∈ getD [("A", [['a', 'a']])] (chStr 'A') := by decide
    have h := DerivN.step (StepR.mk [] [] 'A' ['a', 'a'] hb) (DerivN.refl _)
    have he : interp ['a', 'a'] = ['a', 'a'] := by decide
    rw [he] at h
    simpa using h
  · rintro ⟨n, d⟩
    have hinv := derivN_invariant (P := pipeline "A" [("A", [['a', 'a']])])
        (fun w => w = ['A'] ∨ w = ['T', 'Y', '1']) ?_ d (Or.inl rfl)
    · rcases hinv with h | h
      · exact absurd h (by decide)
      · exact absurd h (by decide)
    · intro u v hu hs
      rcases hu with hu | hu
      · subst hu
        obtain ⟨b, hb, hv⟩ := stepR_singleton hs
        have hg : getD (pipeline "A" [("A", [['a', 'a']])]) (chStr 'A') =
            [['T', 'Y', '1']] := by decide
        rw [hg] at hb
        have hb2 := List.mem_singleton.mp hb
        right
        rw [hv, hb2]
        decide
      · subst hu
        obtain ⟨N, hN, hne⟩ := stepR_mem_ne_nil hs
        have hN2 : N = 'T' ∨ N = 'Y' ∨ N = '1' := by
          rcases List.mem_cons.mp hN with h | h
          · exact Or.inl h
          rcases List.mem_cons.mp h with h2 | h2
          · exact Or.inr (Or.inl h2)
          rcases List.mem_cons.mp h2 with h3 | h3
          · exact Or.inr (Or.inr h3)
          · exact absurd h3 (List.not_mem_nil N)
        rcases hN2 with rfl | rfl | rfl
        · exact absurd (by decide) hne
        · exact absurd (by decide) hne
        · exact absurd (by decide) hne

set_option maxHeartbeats 4000000 in
set_option maxRecDepth 10000 in
/-- C8: refuted for `to_cnf`.  On the already-cleaned grammar S → ABC,
A → a, B → b, C → c, one run of `to_cnf` leaves the three-character body
AY1 for S (the minted name "Y1" is spliced in character-wise), so a second
run lifts the digit 1 and binarizes again, producing new fresh nonterminals
and different body sets: `to_cnf` is not idempotent. -/
theorem claim_C8 :
    prodsEquivB
      (to_cnf "S" (to_cnf "S"
        [("S", [['A', 'B', 'C']]), ("A", [['a']]), ("B", [['b']]), ("C", [['c']])]))
      (to_cnf "S"
        [("S", [['A', 'B', 'C']]), ("A", [['a']]), ("B", [['b']]), ("C", [['c']])]) =
      false := by
  decide
